import Mathlib

/-!
Verification of the crawl/fetch/write core of the Web-Scraping-Krew repository.

The development shallowly embeds the Python sources:
  * `src/crawler.py`  (class `Crawler`: URL normalization, domain/skip filtering,
    frontier queue `get_next_url` / `add_links`),
  * `src/writer.py`   (class `Writer`: idempotent JSONL sink),
  * `src/fetcher.py` and `src/async_fetcher.py` (retry/backoff fetch loop,
    batch fetching).

URLs are modelled as lists of characters (`Str`).  The crawler delegates URL
parsing to CPython's `urllib.parse` (version 3.11), so that library's
`urlsplit`, `urlparse`, `urlunsplit`, `urlunparse`, `_splitnetloc` and
`_splitparams` are embedded here faithfully, including the leading
C0-control/space strip, the removal of tab/CR/LF bytes, the scheme validation
rule, the `uses_netloc`/`uses_params` scheme tables, and the `ValueError`
raised on a netloc with mismatched square brackets (modelled as `none`).
Two deliberate simplifications, both documented where they matter: Python's
full-Unicode `str.lower` is modelled as ASCII lowering (every pattern the code
lowercases against is ASCII), and the non-ASCII-only checks
`_checknetloc` / `_check_bracketed_host` of CPython are omitted (they are
no-ops on ASCII netlocs).
-/

/-- Strings of the embedded program: lists of characters. -/
abbrev Str := List Char

/-- Coerce a Lean string literal to the embedded string type. -/
def chars (s : String) : Str := s.data

/-- Python `_WHATWG_C0_CONTROL_OR_SPACE` membership: C0 controls and the space
(the characters up to and including `' '` = U+0020). -/
def isC0OrSpace (c : Char) : Bool := c ≤ ' '

/-- Python `_UNSAFE_URL_BYTES_TO_REMOVE` membership: tab, CR, LF. -/
def isUnsafeByte (c : Char) : Bool := c = '\t' || c = '\r' || c = '\n'

/-- ASCII uppercase letter test. -/
def isAsciiUpper (c : Char) : Bool := 'A' ≤ c && c ≤ 'Z'

/-- ASCII letter test (`url[0].isascii() and url[0].isalpha()`). -/
def isAsciiAlpha (c : Char) : Bool := ('a' ≤ c && c ≤ 'z') || isAsciiUpper c

/-- ASCII digit test. -/
def isAsciiDigit (c : Char) : Bool := '0' ≤ c && c ≤ '9'

/-- Membership in Python `urllib.parse.scheme_chars`. -/
def isSchemeChar (c : Char) : Bool :=
  isAsciiAlpha c || isAsciiDigit c || c = '+' || c = '-' || c = '.'

/-- ASCII lowering, the effect of Python `str.lower` on ASCII characters
(spelled as the explicit A-Z table). -/
def asciiLower (c : Char) : Char :=
  if c = 'A' then 'a' else
  if c = 'B' then 'b' else
  if c = 'C' then 'c' else
  if c = 'D' then 'd' else
  if c = 'E' then 'e' else
  if c = 'F' then 'f' else
  if c = 'G' then 'g' else
  if c = 'H' then 'h' else
  if c = 'I' then 'i' else
  if c = 'J' then 'j' else
  if c = 'K' then 'k' else
  if c = 'L' then 'l' else
  if c = 'M' then 'm' else
  if c = 'N' then 'n' else
  if c = 'O' then 'o' else
  if c = 'P' then 'p' else
  if c = 'Q' then 'q' else
  if c = 'R' then 'r' else
  if c = 'S' then 's' else
  if c = 'T' then 't' else
  if c = 'U' then 'u' else
  if c = 'V' then 'v' else
  if c = 'W' then 'w' else
  if c = 'X' then 'x' else
  if c = 'Y' then 'y' else
  if c = 'Z' then 'z' else
  c

/-- The sanitisation `urlsplit` applies first: `lstrip` of C0 controls and
spaces, then removal of every tab, CR and LF. -/
def pySanitize (s : Str) : Str :=
  (s.dropWhile isC0OrSpace).filter (fun c => !isUnsafeByte c)

/-- Split a list at the first occurrence of `t`: returns the prefix before it
and, when `t` occurs, the remainder after it (Python `s.split(t, 1)` guarded
by `t in s`, and `s.find(t)`). -/
def breakAt (t : Char) : Str → Str × Option Str
  | [] => ([], none)
  | c :: s =>
    if c = t then ([], some s)
    else
      let r := breakAt t s
      (c :: r.1, r.2)

/-- Scheme acceptance test of `urlsplit`: the candidate `url[:i]` is nonempty,
starts with an ASCII letter, and consists of `scheme_chars` only. -/
def schemeOk : Str → Bool
  | [] => false
  | c :: rest => isAsciiAlpha c && (c :: rest).all isSchemeChar

/-- The scheme-splitting step of `urlsplit`: on `i = url.find(':')` with
`i > 0`, an ASCII-letter start and `scheme_chars` contents, the scheme is
`url[:i].lower()` and the remainder `url[i+1:]`; otherwise the url is kept. -/
def splitScheme (url : Str) : Str × Str :=
  match breakAt ':' url with
  | (pre, some rest) => if schemeOk pre then (pre.map asciiLower, rest) else ([], url)
  | (_, none) => ([], url)

/-- Characters that end the netloc in `_splitnetloc`. -/
def notNetlocDelim (c : Char) : Bool := !(c = '/' || c = '?' || c = '#')

/-- The mismatched-square-bracket test that makes `urlsplit` raise
`ValueError("Invalid IPv6 URL")`. -/
def bracketMismatch (netloc : Str) : Bool :=
  (netloc.contains '[' && !netloc.contains ']') ||
  (netloc.contains ']' && !netloc.contains '[')

/-- Result of Python `urlsplit` (named tuple `SplitResult`). -/
structure SplitResult where
  scheme : Str
  netloc : Str
  path : Str
  query : Str
  fragment : Str
deriving DecidableEq

/-- The fragment- and query-splitting tail of `urlsplit`, applied to the url
remaining after scheme and netloc handling. -/
def splitFragmentQuery (scheme netloc url3 : Str) : SplitResult :=
  let f := breakAt '#' url3
  let url4 := f.1
  let fragment := f.2.getD []
  let q := breakAt '?' url4
  { scheme := scheme, netloc := netloc, path := q.1, query := q.2.getD [],
    fragment := fragment }

/-- Python `urllib.parse.urlsplit` (CPython 3.11), on an arbitrary string;
`none` models the `ValueError` raised for a netloc with mismatched square
brackets.  (`_checknetloc`/`_check_bracketed_host`, which only ever fire on
non-ASCII or already-bracketed netlocs, are not modelled.) -/
def urlsplit (url0 : Str) : Option SplitResult :=
  let url1 := pySanitize url0
  let s := splitScheme url1
  if s.2.take 2 = chars "//" then
    let rest := s.2.drop 2
    let netloc := rest.takeWhile notNetlocDelim
    let url3 := rest.dropWhile notNetlocDelim
    if bracketMismatch netloc then none
    else some (splitFragmentQuery s.1 netloc url3)
  else some (splitFragmentQuery s.1 [] s.2)

/-- Python `urllib.parse._splitparams`: split `;params` from the last path
segment (the first `';'` at or after the last `'/'`). -/
def splitparams (url : Str) : Str × Str :=
  if url.contains '/' then
    match breakAt '/' url.reverse with
    | (bRev, some aRev) =>
      (match breakAt ';' bRev.reverse with
       | (b1, some b2) => (aRev.reverse ++ '/' :: b1, b2)
       | (_, none) => (url, []))
    | (_, none) => (url, [])
  else
    match breakAt ';' url with
    | (u1, some u2) => (u1, u2)
    | (_, none) => (url, [])

/-- Python `urllib.parse.uses_params` (CPython 3.11). -/
def usesParams : List Str :=
  [[], chars "ftp", chars "hdl", chars "prospero", chars "http", chars "imap",
   chars "https", chars "shttp", chars "rtsp", chars "rtsps", chars "rtspu",
   chars "sip", chars "sips", chars "mms", chars "sftp", chars "tel"]

/-- Result of Python `urlparse` (named tuple `ParseResult`). -/
structure ParseResult where
  scheme : Str
  netloc : Str
  path : Str
  params : Str
  query : Str
  fragment : Str
deriving DecidableEq

/-- Python `urllib.parse.urlparse`: `urlsplit` plus the conditional
`_splitparams` step (`if scheme in uses_params and ';' in url`). -/
def urlparse (url : Str) : Option ParseResult :=
  match urlsplit url with
  | none => none
  | some s =>
    if usesParams.contains s.scheme ∧ s.path.contains ';' then
      let pr := splitparams s.path
      some ⟨s.scheme, s.netloc, pr.1, pr.2, s.query, s.fragment⟩
    else
      some ⟨s.scheme, s.netloc, s.path, [], s.query, s.fragment⟩

/-- Python `urllib.parse.uses_netloc` (CPython 3.11). -/
def usesNetloc : List Str :=
  [[], chars "ftp", chars "http", chars "gopher", chars "nntp", chars "telnet",
   chars "imap", chars "wais", chars "file", chars "mms", chars "https",
   chars "shttp", chars "snews", chars "prospero", chars "rtsp", chars "rtsps",
   chars "rtspu", chars "rsync", chars "svn", chars "svn+ssh", chars "sftp",
   chars "nfs", chars "git", chars "git+ssh", chars "ws", chars "wss"]

/-- First statement of `urlunsplit`: re-attach `'//' + netloc` when the
netloc is nonempty, or when the scheme is a `uses_netloc` scheme and the url
does not already start with `'//'` (inserting a `'/'` before a nonempty url
that does not start with one). -/
def unsplitNetlocStep (scheme netloc url : Str) : Str :=
  if netloc ≠ [] ∨ (scheme ≠ [] ∧ usesNetloc.contains scheme ∧ url.take 2 ≠ ['/', '/']) then
    '/' :: '/' :: (netloc ++ (if url ≠ [] ∧ url.head? ≠ some '/' then '/' :: url else url))
  else url

/-- Second statement of `urlunsplit`: prefix `scheme + ':'` when a scheme is
present. -/
def unsplitSchemeStep (scheme url : Str) : Str :=
  if scheme ≠ [] then scheme ++ ':' :: url else url

/-- Third statement of `urlunsplit`: append `'?' + query` when a query is
present. -/
def unsplitQueryStep (url query : Str) : Str :=
  if query ≠ [] then url ++ '?' :: query else url

/-- Fourth statement of `urlunsplit`: append `'#' + fragment` when a fragment
is present. -/
def unsplitFragStep (url fragment : Str) : Str :=
  if fragment ≠ [] then url ++ '#' :: fragment else url

/-- Python `urllib.parse.urlunsplit` (CPython 3.11): the four reassignments
in sequence. -/
def urlunsplit (scheme netloc url query fragment : Str) : Str :=
  unsplitFragStep
    (unsplitQueryStep (unsplitSchemeStep scheme (unsplitNetlocStep scheme netloc url)) query)
    fragment

/-- Python `urllib.parse.urlunparse`: re-join `;params`, then `urlunsplit`. -/
def urlunparse (p : ParseResult) : Str :=
  let url := if p.params ≠ [] then p.path ++ ';' :: p.params else p.path
  urlunsplit p.scheme p.netloc url p.query p.fragment

/-- Python `s.rstrip("/")`: drop every trailing slash. -/
def rstripSlashes (s : Str) : Str := (s.reverse.dropWhile (fun c => c = '/')).reverse

/-! ## Crawler (`src/crawler.py`) -/

/-- State of a `Crawler` instance.  Python's `visited` set and `url_depths`
dict are modelled as lists (`get_next_url` only inserts unvisited URLs, so the
list never acquires duplicates); the optional regex `url_pattern` is modelled
as the matcher `re.search(url_pattern, ·)` it compiles to. -/
structure Crawler where
  start_url : Str
  max_pages : Nat
  max_depth : Nat
  url_pattern : Option (Str → Bool)
  base_domain : Str
  base_path : Str
  visited : List Str
  url_depths : List (Str × Nat)
  queue : List (Str × Nat)
  scraped_count : Nat

/-- `Crawler.__init__`: parse the start URL (a malformed netloc raises, hence
`none`), record the base domain and path, and seed the queue with the raw
`(start_url, 0)` pair. -/
def Crawler.init (start_url : Str) (max_pages max_depth : Nat)
    (url_pattern : Option (Str → Bool)) : Option Crawler :=
  match urlparse start_url with
  | none => none
  | some p =>
    some { start_url := start_url, max_pages := max_pages, max_depth := max_depth,
           url_pattern := url_pattern,
           base_domain := p.scheme ++ chars "://" ++ p.netloc,
           base_path := rstripSlashes p.path,
           visited := [], url_depths := [], queue := [(start_url, 0)],
           scraped_count := 0 }

/-- `Crawler._normalize_url`: re-assemble the parse with an empty fragment;
then, if the result ends in `'/'` and the parsed path is longer than one
character, `rstrip("/")` the whole string. -/
def Crawler._normalize_url (url : Str) : Option Str :=
  (urlparse url).map (fun p =>
    let normalized := urlunparse { p with fragment := [] }
    if normalized.getLast? = some '/' ∧ 1 < p.path.length then rstripSlashes normalized
    else normalized)

/-- `Crawler._is_same_domain`: compare the netloc of `url` with the netloc of
the instance's `start_url`; any parse error is caught and yields `False`. -/
def Crawler._is_same_domain (c : Crawler) (url : Str) : Bool :=
  match urlparse url, urlparse c.start_url with
  | some p, some q => p.netloc == q.netloc
  | _, _ => false

/-- Substring containment, the effect of `re.search` for a literal pattern. -/
def hasSub (needle : Str) : Str → Bool
  | [] => needle.isEmpty
  | c :: s => needle.isPrefixOf (c :: s) || hasSub needle s

/-- The static-asset extensions of `Crawler.SKIP_PATTERNS`. -/
def extList : List Str :=
  [chars "pdf", chars "jpg", chars "jpeg", chars "png", chars "gif",
   chars "svg", chars "css", chars "js", chars "zip", chars "tar", chars "gz"]

/-- The effect of `re.search(r"\.(ext|...)$", s)`: some `.ext` alternative at
the end of the string, or just before one trailing newline (Python `$`). -/
def extMatch (s : Str) : Bool :=
  extList.any (fun e => ('.' :: e).isSuffixOf s || ('.' :: e ++ ['\n']).isSuffixOf s)

/-- `Crawler._should_skip`: lowercase the URL (ASCII lowering; every
`SKIP_PATTERNS` entry is lowercase ASCII) and test it against the fixed
pattern table.  All patterns except the extension alternation are literal
substring searches (`/search\?` searches for the literal `/search?`). -/
def Crawler._should_skip (url : Str) : Bool :=
  let u := url.map asciiLower
  hasSub (chars "/login") u || hasSub (chars "/signin") u ||
  hasSub (chars "/signup") u || hasSub (chars "/register") u ||
  hasSub (chars "/search?") u || hasSub (chars "/cart") u ||
  hasSub (chars "/checkout") u || extMatch u || hasSub (chars "#") u ||
  hasSub (chars "mailto:") u || hasSub (chars "tel:") u

/-- `Crawler.get_next_url`: pop queue entries, normalizing each URL and
skipping it when visited, over-depth or skip-matched, until an acceptable
entry, an empty queue, or an exhausted budget.  The uncaught `ValueError`
`_normalize_url` can raise propagates as `.error` together with the state at
the raise point (the entry already popped, nothing else changed). -/
def Crawler.get_next_url (c : Crawler) : Except Crawler (Option (Str × Nat) × Crawler) :=
  if c.scraped_count ≥ c.max_pages then .ok (none, c)
  else
    match h : c.queue with
    | [] => .ok (none, c)
    | (url, depth) :: rest =>
      let c1 : Crawler := { c with queue := rest }
      match Crawler._normalize_url url with
      | none => .error c1
      | some nurl =>
        if nurl ∈ c1.visited then c1.get_next_url
        else if depth > c1.max_depth then c1.get_next_url
        else if Crawler._should_skip nurl then c1.get_next_url
        else .ok (some (nurl, depth),
          { c1 with visited := nurl :: c1.visited,
                    url_depths := (nurl, depth) :: c1.url_depths,
                    scraped_count := c1.scraped_count + 1 })
termination_by c.queue.length
decreasing_by all_goals simp_all [c1]

/-- Number of queue entries `get_next_url` pops before it returns (its
recursion depth): the instrumentation of the same recursion. -/
def Crawler.get_next_url_steps (c : Crawler) : Nat :=
  if c.scraped_count ≥ c.max_pages then 0
  else
    match h : c.queue with
    | [] => 0
    | (url, depth) :: rest =>
      let c1 : Crawler := { c with queue := rest }
      match Crawler._normalize_url url with
      | none => 1
      | some nurl =>
        if nurl ∈ c1.visited then 1 + c1.get_next_url_steps
        else if depth > c1.max_depth then 1 + c1.get_next_url_steps
        else if Crawler._should_skip nurl then 1 + c1.get_next_url_steps
        else 1
termination_by c.queue.length
decreasing_by all_goals simp_all [c1]

/-- `Crawler.add_links`, modelled on the list of absolute link URLs: link
extraction (`BeautifulSoup`, `href` strip, skip of empty hrefs) and relative
resolution (`urljoin`) are the upstream collaborator, so `links` holds the
already-resolved absolute URL of each discovered link, in page order.  Each
link is normalized and enqueued at `current_depth + 1` iff it passes the
same-domain, not-visited, not-skip, pattern and not-already-queued checks; the
`ValueError` a malformed link raises is caught by the surrounding
`try/except`, which abandons the remaining links (state kept). -/
def Crawler.add_links (c : Crawler) (links : List Str) (current_depth : Nat) : Crawler :=
  match links with
  | [] => c
  | link :: rest =>
    match Crawler._normalize_url link with
    | none => c
    | some normalized =>
      if ¬ c._is_same_domain normalized then c.add_links rest current_depth
      else if normalized ∈ c.visited then c.add_links rest current_depth
      else if Crawler._should_skip normalized then c.add_links rest current_depth
      else if (match c.url_pattern with
               | some pat => !pat normalized
               | none => false) then c.add_links rest current_depth
      else if c.queue.any (fun e => e.1 == normalized) then c.add_links rest current_depth
      else ({ c with queue := c.queue ++ [(normalized, current_depth + 1)] }).add_links
             rest current_depth

/-- One interaction with the frontier: a `get_next_url` call or an
`add_links` call (with the resolved links of some fetched page). -/
inductive CrawlOp where
  | next : CrawlOp
  | add (links : List Str) (depth : Nat) : CrawlOp

/-- Drive a crawler through a sequence of operations, counting how many
`next` calls return a URL.  An uncaught `ValueError` from `get_next_url`
aborts the run (as it would abort the Python process). -/
def Crawler.run (c : Crawler) : List CrawlOp → Crawler × Nat
  | [] => (c, 0)
  | .add links d :: ops => (c.add_links links d).run ops
  | .next :: ops =>
    match c.get_next_url with
    | .error c1 => (c1, 0)
    | .ok (none, c1) => c1.run ops
    | .ok (some _, c1) =>
      let r := c1.run ops
      (r.1, r.2 + 1)

/-! ## Writer (`src/writer.py`) -/

/-- A document handed to the writer: the optional `"url"` field the writer
inspects, and the rest of the record (opaque payload).  One sink line holds
one serialized document. -/
structure Document where
  url? : Option Str
  payload : Str
deriving DecidableEq

/-- State of a `Writer` instance (named `WriterState`, after the spec, because
Lean already has a `Writer`): the resume flag, the URL-idempotency set
(modelled as a list), and the JSONL sink contents (one document per line).
The timestamped-path option and filesystem errors are not modelled. -/
structure WriterState where
  resume : Bool
  existing_urls : List Str
  sink : List Document
deriving DecidableEq

/-- `Writer.__init__`: `file` is the pre-existing sink contents (`none` when
the file does not exist).  When `resume` is set and the file exists, the
`url` field of every line is loaded into `existing_urls`. -/
def WriterState.init (resume : Bool) (file : Option (List Document)) : WriterState :=
  { resume := resume,
    sink := file.getD [],
    existing_urls :=
      if resume then (file.getD []).filterMap (fun d => d.url?) else [] }

/-- `Writer.should_skip`: `False` unless resuming; otherwise membership in
`existing_urls`. -/
def WriterState.should_skip (w : WriterState) (url : Str) : Bool :=
  if !w.resume then false else url ∈ w.existing_urls

/-- `Writer.write`: fail on a missing `url` field or on `should_skip`;
otherwise append one line to the sink and, when resuming, record the URL
immediately. -/
def WriterState.write (w : WriterState) (document : Document) : Bool × WriterState :=
  match document.url? with
  | none => (false, w)
  | some u =>
    if w.should_skip u then (false, w)
    else (true,
      { w with sink := w.sink ++ [document],
               existing_urls := if w.resume then u :: w.existing_urls
                                else w.existing_urls })

/-- Number of sink lines whose document carries the given URL. -/
def WriterState.count_for (w : WriterState) (url : Str) : Nat :=
  w.sink.countP (fun d => d.url? == some url)

/-! ## Fetchers (`src/fetcher.py`, `src/async_fetcher.py`) -/

/-- Outcome of one `client.get(url)` call: a response with a status code, an
`httpx.TimeoutException`, or another `httpx.RequestError`. -/
inductive HttpOutcome where
  | response (status : Nat) : HttpOutcome
  | timeout : HttpOutcome
  | net_error : HttpOutcome
deriving DecidableEq

/-- Observable trace of one `fetch` call: how many HTTP attempts were issued,
the sequence of backoff sleeps (in seconds), and the final result (`some
status` on success, `none` on failure).  The inter-request throttle and the
rate-limiting delay are outside the retry loop and not part of the trace. -/
structure FetchTrace where
  attempts : Nat
  sleeps : List Nat
  result : Option Nat
deriving DecidableEq

/-- The retry loop `for attempt in range(max_retries)` shared by
`Fetcher.fetch` and `AsyncFetcher.fetch`, entered at iteration `attempt`.
`server` gives the outcome of the HTTP attempt with each index.
`raise_for_status` raises unless the status is 2xx; a 5xx error sleeps
`2 ** attempt` and continues when further attempts remain (falling through to
the next iteration, without a sleep, on the last one); any other status error
returns `None` at once; a timeout retries with the same backoff but returns
`None` directly on the last attempt; any other request error returns `None`
at once; falling out of the loop returns `None`. -/
def retryLoopFrom (server : Nat → HttpOutcome) (max_retries attempt : Nat) : FetchTrace :=
  if attempt ≥ max_retries then ⟨0, [], none⟩
  else
    match server attempt with
    | .response status =>
      if 200 ≤ status ∧ status ≤ 299 then ⟨1, [], some status⟩
      else if status ≥ 500 then
        let t := retryLoopFrom server max_retries (attempt + 1)
        ⟨t.attempts + 1,
         (if attempt + 1 < max_retries then [2 ^ attempt] else []) ++ t.sleeps,
         t.result⟩
      else ⟨1, [], none⟩
    | .timeout =>
      if attempt + 1 < max_retries then
        let t := retryLoopFrom server max_retries (attempt + 1)
        ⟨t.attempts + 1, 2 ^ attempt :: t.sleeps, t.result⟩
      else ⟨1, [], none⟩
    | .net_error => ⟨1, [], none⟩
termination_by max_retries - attempt
decreasing_by all_goals omega

/-- `Fetcher.fetch(url)`: the retry loop from attempt 0 (the throttle that
precedes it performs no HTTP attempt). -/
def Fetcher.fetch (max_retries : Nat) (server : Nat → HttpOutcome) : FetchTrace :=
  retryLoopFrom server max_retries 0

/-- `AsyncFetcher.fetch(url)`: same retry loop under the semaphore and
rate-limit delay; every return path yields the pair `(url, ·)`. -/
def AsyncFetcher.fetch (max_retries : Nat) (server : Nat → HttpOutcome)
    (url : Str) : Str × FetchTrace :=
  (url, retryLoopFrom server max_retries 0)

/-- `AsyncFetcher.fetch_batch(urls)`: one `fetch` task per input URL;
`asyncio.gather` awaits them all and returns their results in task order. -/
def AsyncFetcher.fetch_batch (max_retries : Nat) (server : Str → Nat → HttpOutcome)
    (urls : List Str) : List (Str × FetchTrace) :=
  urls.map (fun u => AsyncFetcher.fetch max_retries (server u) u)

/-! ## Helper lemmas -/

/-- Value of the retry loop against a server that always answers 500, from
any attempt index still inside the budget: the remaining attempts are all
used, a backoff of `2 ^ i` is slept after every attempt `i` but the last, and
the loop fails. -/
theorem retryLoop_const500 (mr : Nat) :
    ∀ k a, mr - a = k → a < mr →
      retryLoopFrom (fun _ => HttpOutcome.response 500) mr a =
        ⟨mr - a, (List.range (mr - 1 - a)).map (fun i => 2 ^ (a + i)), none⟩ := by
  intro k
  induction k with
  | zero => intro a hk ha; omega
  | succ k ih =>
    intro a hk ha
    rw [retryLoopFrom]
    simp only [ge_iff_le, not_le.mpr ha, if_false]
    have hc1 : ¬ (200 ≤ 500 ∧ 500 ≤ 299) := by omega
    have hc2 : (500 : Nat) ≤ 500 := le_refl 500
    simp only [if_neg hc1, ge_iff_le, if_pos hc2]
    by_cases hlast : a + 1 < mr
    · rw [ih (a + 1) (by omega) hlast]
      simp only [if_pos hlast]
      have h2 : mr - 1 - a = (mr - 1 - (a + 1)) + 1 := by omega
      have hfun : ((fun i => 2 ^ (a + i)) ∘ Nat.succ) = (fun i => 2 ^ (a + 1 + i)) := by
        funext i
        simp only [Function.comp_apply]
        congr 1
        omega
      simp only [FetchTrace.mk.injEq]
      refine ⟨by omega, ?_, trivial⟩
      rw [h2, List.range_succ_eq_map, List.map_cons, List.map_map, hfun]
      rfl
    · have hstop : a + 1 ≥ mr := by omega
      rw [retryLoopFrom]
      simp only [ge_iff_le, if_pos hstop, if_neg hlast]
      have h1 : mr - a = 1 := by omega
      have h2 : mr - 1 - a = 0 := by omega
      simp [h1, h2]

/-! ## Claims -/

/-- Claim C1, counterexample: with `resume=False` (the claim quantifies over
any resume setting), writing the same document twice succeeds twice and the
sink ends with two lines for the URL, contradicting the claimed
first-true/second-false/single-line behaviour. -/
theorem c1_write_twice_counterexample :
    ((WriterState.init false none).write ⟨some (chars "http://x"), []⟩).1 = true ∧
    (((WriterState.init false none).write ⟨some (chars "http://x"), []⟩).2.write
        ⟨some (chars "http://x"), []⟩).1 = true ∧
    (((WriterState.init false none).write ⟨some (chars "http://x"), []⟩).2.write
        ⟨some (chars "http://x"), []⟩).2.count_for (chars "http://x") = 2 := by
  decide

/-- Claim C1 (amended): for a writer in resume mode, writing a document with
a URL that is not yet recorded and has no sink line yet succeeds, a second
write of the same document in the same run fails, and the sink then holds
exactly one line for that URL.  (Without resume mode the second write
succeeds again: see the counterexample.) -/
theorem c1_write_twice (w : WriterState) (d : Document) (u : Str)
    (hurl : d.url? = some u) (hres : w.resume = true)
    (hnew : u ∉ w.existing_urls) (hcount : w.count_for u = 0) :
    (w.write d).1 = true ∧ ((w.write d).2.write d).1 = false ∧
    ((w.write d).2.write d).2.count_for u = 1 := by
  have hskip : w.should_skip u = false := by
    simp [WriterState.should_skip, hres, hnew]
  have hskip2 :
      (WriterState.should_skip
        { w with sink := w.sink ++ [d],
                 existing_urls := if w.resume then u :: w.existing_urls
                                  else w.existing_urls } u) = true := by
    simp [WriterState.should_skip, hres]
  refine ⟨?_, ?_, ?_⟩
  · simp [WriterState.write, hurl, hskip]
  · simp [WriterState.write, hurl, hskip, hskip2]
  · simp only [WriterState.write, hurl, hskip, Bool.false_eq_true, if_false, hskip2, if_true]
    simp only [WriterState.count_for, List.countP_append] at hcount ⊢
    simp [hcount, List.countP_cons, hurl]

/-- Claim C1 witness: the amended behaviour at a fresh resume-mode writer and
the document `{url: "http://x"}`. -/
theorem c1_write_twice_witness :
    ((WriterState.init true none).write ⟨some (chars "http://x"), []⟩).1 = true ∧
    (((WriterState.init true none).write ⟨some (chars "http://x"), []⟩).2.write
        ⟨some (chars "http://x"), []⟩).1 = false ∧
    (((WriterState.init true none).write ⟨some (chars "http://x"), []⟩).2.write
        ⟨some (chars "http://x"), []⟩).2.count_for (chars "http://x") = 1 :=
  c1_write_twice (WriterState.init true none) ⟨some (chars "http://x"), []⟩
    (chars "http://x") rfl rfl (by decide) (by decide)

/-- Claim C3: against a server that always answers 500, `fetch` (sync and
async alike) issues exactly `max_retries` HTTP attempts, sleeping `2 ^ a`
seconds between attempts `a` and `a + 1` (`a` starting at 0), and returns
`None`; against a server answering 404 it issues exactly one attempt and
returns `None` immediately with no backoff sleep. -/
theorem c3_retry_backoff (max_retries : Nat) (url : Str) (h : 1 ≤ max_retries) :
    Fetcher.fetch max_retries (fun _ => .response 500) =
      ⟨max_retries, (List.range (max_retries - 1)).map (fun a => 2 ^ a), none⟩ ∧
    Fetcher.fetch max_retries (fun _ => .response 404) = ⟨1, [], none⟩ ∧
    AsyncFetcher.fetch max_retries (fun _ => .response 500) url =
      (url, ⟨max_retries, (List.range (max_retries - 1)).map (fun a => 2 ^ a), none⟩) ∧
    AsyncFetcher.fetch max_retries (fun _ => .response 404) url = (url, ⟨1, [], none⟩) := by
  have h500 : retryLoopFrom (fun _ => HttpOutcome.response 500) max_retries 0 =
      ⟨max_retries, (List.range (max_retries - 1)).map (fun a => 2 ^ a), none⟩ := by
    have := retryLoop_const500 max_retries (max_retries - 0) 0 rfl (by omega)
    simpa using this
  have h404 : retryLoopFrom (fun _ => HttpOutcome.response 404) max_retries 0 =
      ⟨1, [], none⟩ := by
    rw [retryLoopFrom]
    have : ¬ (0 ≥ max_retries) := by omega
    simp [this]
  exact ⟨h500, h404, by simp [AsyncFetcher.fetch, h500], by simp [AsyncFetcher.fetch, h404]⟩

/-- Claim C3 witness: three retries against the constant-500 and constant-404
servers. -/
theorem c3_retry_backoff_witness :
    Fetcher.fetch 3 (fun _ => .response 500) =
      ⟨3, (List.range 2).map (fun a => 2 ^ a), none⟩ ∧
    Fetcher.fetch 3 (fun _ => .response 404) = ⟨1, [], none⟩ ∧
    AsyncFetcher.fetch 3 (fun _ => .response 500) (chars "http://u") =
      (chars "http://u", ⟨3, (List.range 2).map (fun a => 2 ^ a), none⟩) ∧
    AsyncFetcher.fetch 3 (fun _ => .response 404) (chars "http://u") =
      (chars "http://u", ⟨1, [], none⟩) :=
  c3_retry_backoff 3 (chars "http://u") (by decide)

/-- Claim C10: `fetch_batch` returns exactly one result per input URL, in
input order, each carrying its input URL as first component, and (being a
plain function of the inputs) is fully collected before it returns. -/
theorem c10_fetch_batch (max_retries : Nat) (server : Str → Nat → HttpOutcome)
    (urls : List Str) :
    (AsyncFetcher.fetch_batch max_retries server urls).map Prod.fst = urls ∧
    (AsyncFetcher.fetch_batch max_retries server urls).length = urls.length := by
  constructor
  · show (urls.map (fun u => (u, retryLoopFrom (server u) max_retries 0))).map Prod.fst = urls
    rw [List.map_map]
    show urls.map (fun u => u) = urls
    simp
  · simp [AsyncFetcher.fetch_batch]

/-- Claim C7, counterexample: the constructor seeds the queue with the *raw*
start URL, not its normalization — for `"http://example.com/page/"` the
queued entry keeps the trailing slash that `_normalize_url` removes. -/
theorem c7_init_seed_counterexample :
    (Crawler.init (chars "http://example.com/page/") 100 3 none).map Crawler.queue =
      some [(chars "http://example.com/page/", 0)] ∧
    Crawler._normalize_url (chars "http://example.com/page/") =
      some (chars "http://example.com/page") ∧
    chars "http://example.com/page/" ≠ chars "http://example.com/page" := by
  decide

/-- Claim C7 (amended): construction seeds the queue with exactly the single
entry `(startURL, 0)` — the start URL as given, un-normalized; normalization
is applied when the entry is dequeued by `get_next_url`. -/
theorem c7_init_seed (start_url : Str) (max_pages max_depth : Nat)
    (pat : Option (Str → Bool)) (c : Crawler)
    (h : Crawler.init start_url max_pages max_depth pat = some c) :
    c.queue = [(start_url, 0)] := by
  unfold Crawler.init at h
  cases hp : urlparse start_url with
  | none => rw [hp] at h; exact absurd h (by simp)
  | some p =>
    rw [hp] at h
    cases h
    rfl

/-- Claim C7 witness: the amended seeding at `"http://example.com"`. -/
theorem c7_init_seed_witness :
    (Crawler.init (chars "http://example.com") 10 2 none).map Crawler.queue =
      some [(chars "http://example.com", 0)] := by
  obtain ⟨c, hc⟩ : ∃ c, Crawler.init (chars "http://example.com") 10 2 none = some c :=
    ⟨_, rfl⟩
  rw [hc, Option.map_some']
  exact congrArg some (c7_init_seed _ 10 2 none c hc)

/-- Claim C4, counterexample: `_is_same_domain` compares only the netloc, not
the scheme — `"https://example.com/page"` against start URL
`"http://example.com"` returns `True` although the schemes differ, so the
claimed scheme+netloc iff fails. -/
theorem c4_same_domain_counterexample :
    (Crawler.init (chars "http://example.com") 100 3 none).map
        (fun c => c._is_same_domain (chars "https://example.com/page")) = some true ∧
    (urlparse (chars "https://example.com/page")).map ParseResult.scheme =
      some (chars "https") ∧
    (urlparse (chars "http://example.com")).map ParseResult.scheme =
      some (chars "http") ∧
    chars "https" ≠ chars "http" := by
  decide

/-- Claim C4 (amended): `_is_same_domain(url)` returns `True` iff both `url`
and the crawler's start URL parse successfully and have equal netlocs — the
scheme is not compared; parse failures (the `ValueError` of a malformed
netloc) are caught and yield `False`, and the function is total, so it never
raises. -/
theorem c4_same_domain (c : Crawler) (url : Str) :
    c._is_same_domain url = true ↔
      ∃ p q, urlparse url = some p ∧ urlparse c.start_url = some q ∧
        p.netloc = q.netloc := by
  unfold Crawler._is_same_domain
  cases hp : urlparse url with
  | none => simp
  | some p =>
    cases hq : urlparse c.start_url with
    | none => simp
    | some q =>
      constructor
      · intro h
        exact ⟨p, q, rfl, rfl, by simpa using h⟩
      · rintro ⟨p1, q1, hp1, hq1, hn⟩
        cases hp1
        cases hq1
        simpa using hn

/-! ## Character and splitting lemmas -/

/-- `asciiLower` maps a character to itself or to a lowercase ASCII letter. -/
theorem asciiLower_self_or_lower (c : Char) :
    asciiLower c = c ∨ asciiLower c ∈ chars "abcdefghijklmnopqrstuvwxyz" := by
  rcases eq_or_ne c 'A' with h1 | h1
  · subst h1; decide
  rcases eq_or_ne c 'B' with h2 | h2
  · subst h2; decide
  rcases eq_or_ne c 'C' with h3 | h3
  · subst h3; decide
  rcases eq_or_ne c 'D' with h4 | h4
  · subst h4; decide
  rcases eq_or_ne c 'E' with h5 | h5
  · subst h5; decide
  rcases eq_or_ne c 'F' with h6 | h6
  · subst h6; decide
  rcases eq_or_ne c 'G' with h7 | h7
  · subst h7; decide
  rcases eq_or_ne c 'H' with h8 | h8
  · subst h8; decide
  rcases eq_or_ne c 'I' with h9 | h9
  · subst h9; decide
  rcases eq_or_ne c 'J' with h10 | h10
  · subst h10; decide
  rcases eq_or_ne c 'K' with h11 | h11
  · subst h11; decide
  rcases eq_or_ne c 'L' with h12 | h12
  · subst h12; decide
  rcases eq_or_ne c 'M' with h13 | h13
  · subst h13; decide
  rcases eq_or_ne c 'N' with h14 | h14
  · subst h14; decide
  rcases eq_or_ne c 'O' with h15 | h15
  · subst h15; decide
  rcases eq_or_ne c 'P' with h16 | h16
  · subst h16; decide
  rcases eq_or_ne c 'Q' with h17 | h17
  · subst h17; decide
  rcases eq_or_ne c 'R' with h18 | h18
  · subst h18; decide
  rcases eq_or_ne c 'S' with h19 | h19
  · subst h19; decide
  rcases eq_or_ne c 'T' with h20 | h20
  · subst h20; decide
  rcases eq_or_ne c 'U' with h21 | h21
  · subst h21; decide
  rcases eq_or_ne c 'V' with h22 | h22
  · subst h22; decide
  rcases eq_or_ne c 'W' with h23 | h23
  · subst h23; decide
  rcases eq_or_ne c 'X' with h24 | h24
  · subst h24; decide
  rcases eq_or_ne c 'Y' with h25 | h25
  · subst h25; decide
  rcases eq_or_ne c 'Z' with h26 | h26
  · subst h26; decide
  left
  unfold asciiLower
  rw [if_neg h1, if_neg h2, if_neg h3, if_neg h4, if_neg h5, if_neg h6, if_neg h7, if_neg h8, if_neg h9, if_neg h10, if_neg h11, if_neg h12, if_neg h13, if_neg h14, if_neg h15, if_neg h16, if_neg h17, if_neg h18, if_neg h19, if_neg h20, if_neg h21, if_neg h22, if_neg h23, if_neg h24, if_neg h25, if_neg h26]

/-- Lowercase ASCII letters are fixed points of `asciiLower`. -/
theorem asciiLower_fixed_of_lower :
    ∀ d ∈ chars "abcdefghijklmnopqrstuvwxyz", asciiLower d = d := by decide

/-- `asciiLower` is idempotent. -/
theorem asciiLower_idem (c : Char) : asciiLower (asciiLower c) = asciiLower c := by
  rcases asciiLower_self_or_lower c with h | h
  · simp only [h]
  · exact asciiLower_fixed_of_lower _ h

/-- `asciiLower` preserves `scheme_chars` membership. -/
theorem isSchemeChar_asciiLower (c : Char) (h : isSchemeChar c = true) :
    isSchemeChar (asciiLower c) = true := by
  rcases asciiLower_self_or_lower c with h2 | h2
  · rwa [h2]
  · exact (by decide : ∀ d ∈ chars "abcdefghijklmnopqrstuvwxyz", isSchemeChar d = true) _ h2

/-- `asciiLower` preserves ASCII-letter-ness. -/
theorem isAsciiAlpha_asciiLower (c : Char) (h : isAsciiAlpha c = true) :
    isAsciiAlpha (asciiLower c) = true := by
  rcases asciiLower_self_or_lower c with h2 | h2
  · rwa [h2]
  · exact (by decide : ∀ d ∈ chars "abcdefghijklmnopqrstuvwxyz", isAsciiAlpha d = true) _ h2

/-- A lowered `scheme_chars` character is never a character outside
`scheme_chars` (such as `':'`, `'/'`, `'?'`, `'#'` or `';'`). -/
theorem asciiLower_schemeChar_ne (c x : Char) (hc : isSchemeChar c = true)
    (hx : isSchemeChar x = false) : asciiLower c ≠ x := by
  intro he
  have h2 := isSchemeChar_asciiLower c hc
  rw [he, hx] at h2
  exact Bool.false_ne_true h2

/-- `scheme_chars` characters are above the C0/space range. -/
theorem schemeChar_not_c0 (c : Char) (h : isSchemeChar c = true) :
    isC0OrSpace c = false := by
  unfold isSchemeChar isAsciiAlpha isAsciiUpper isAsciiDigit at h
  unfold isC0OrSpace
  simp only [Bool.or_eq_true, Bool.and_eq_true, decide_eq_true_eq] at h
  simp only [decide_eq_false_iff_not, not_le]
  rcases h with ((((h1 | h1) | h1) | h1) | h1) | h1
  · exact lt_of_lt_of_le (by decide) h1.1
  · exact lt_of_lt_of_le (by decide) h1.1
  · exact lt_of_lt_of_le (by decide) h1.1
  · rw [h1]; decide
  · rw [h1]; decide
  · rw [h1]; decide

/-- `scheme_chars` characters are not unsafe bytes. -/
theorem schemeChar_not_unsafe (c : Char) (h : isSchemeChar c = true) :
    isUnsafeByte c = false := by
  have hc0 := schemeChar_not_c0 c h
  unfold isC0OrSpace at hc0
  unfold isUnsafeByte
  simp only [decide_eq_false_iff_not, not_le] at hc0
  simp only [Bool.or_eq_false_iff, decide_eq_false_iff_not]
  refine ⟨⟨?_, ?_⟩, ?_⟩ <;> intro he <;> rw [he] at hc0 <;> exact absurd hc0 (by decide)

/-- The first component of `breakAt t` never contains `t`. -/
theorem breakAt_not_mem_fst (t : Char) (s : Str) : t ∉ (breakAt t s).1 := by
  induction s with
  | nil => simp [breakAt]
  | cons c s ih =>
    by_cases h : c = t
    · simp [breakAt, h]
    · simp only [breakAt, if_neg h]
      intro hmem
      rcases List.mem_cons.mp hmem with h1 | h1
      · exact h h1.symm
      · exact ih h1

/-- `breakAt` on a list not containing `t` keeps the list and finds nothing. -/
theorem breakAt_of_not_mem (t : Char) (s : Str) (h : t ∉ s) : breakAt t s = (s, none) := by
  induction s with
  | nil => rfl
  | cons c s ih =>
    have hct : ¬ c = t := fun he => h (he ▸ List.mem_cons_self c s)
    have hs : t ∉ s := fun hm => h (List.mem_cons_of_mem c hm)
    simp [breakAt, hct, ih hs]

/-- When `breakAt` finds `t`, the list decomposes around the first `t`. -/
theorem breakAt_decomp (t : Char) (s r : Str) (h : (breakAt t s).2 = some r) :
    s = (breakAt t s).1 ++ t :: r := by
  induction s generalizing r with
  | nil => simp [breakAt] at h
  | cons c s ih =>
    by_cases hct : c = t
    · simp only [breakAt, if_pos hct] at h ⊢
      cases h
      simpa using hct
    · simp only [breakAt, if_neg hct] at h ⊢
      rw [List.cons_append, ← ih r h]

/-- When `breakAt` finds nothing, the first component is the whole list. -/
theorem breakAt_fst_of_none (t : Char) (s : Str) (h : (breakAt t s).2 = none) :
    (breakAt t s).1 = s := by
  induction s with
  | nil => rfl
  | cons c s ih =>
    by_cases hct : c = t
    · simp [breakAt, hct] at h
    · simp only [breakAt, if_neg hct] at h ⊢
      rw [ih h]

/-- Every character of `(breakAt t s).1` comes from `s`. -/
theorem mem_of_mem_breakAt_fst {c t : Char} {s : Str} (h : c ∈ (breakAt t s).1) :
    c ∈ s := by
  cases hsnd : (breakAt t s).2 with
  | none => rwa [breakAt_fst_of_none t s hsnd] at h
  | some r =>
    rw [breakAt_decomp t s r hsnd]
    exact List.mem_append_left _ h

/-- Every character of a found `(breakAt t s).2` comes from `s`. -/
theorem mem_of_mem_breakAt_snd {c t : Char} {s r : Str}
    (hsnd : (breakAt t s).2 = some r) (h : c ∈ r) : c ∈ s := by
  rw [breakAt_decomp t s r hsnd]
  exact List.mem_append_right _ (List.mem_cons_of_mem _ h)

/-- Characters surviving `rstripSlashes` come from the original list. -/
theorem mem_of_mem_rstripSlashes {c : Char} {s : Str} (h : c ∈ rstripSlashes s) :
    c ∈ s := by
  unfold rstripSlashes at h
  rw [List.mem_reverse] at h
  rw [← List.mem_reverse]
  exact (List.dropWhile_sublist _).mem h

/-- Projection of `splitFragmentQuery`: the path. -/
theorem sfq_path (scheme netloc url3 : Str) :
    (splitFragmentQuery scheme netloc url3).path = (breakAt '?' (breakAt '#' url3).1).1 := rfl

/-- Projection of `splitFragmentQuery`: the query. -/
theorem sfq_query (scheme netloc url3 : Str) :
    (splitFragmentQuery scheme netloc url3).query =
      ((breakAt '?' (breakAt '#' url3).1).2.getD []) := rfl

/-- Projection of `splitFragmentQuery`: the fragment. -/
theorem sfq_fragment (scheme netloc url3 : Str) :
    (splitFragmentQuery scheme netloc url3).fragment = ((breakAt '#' url3).2.getD []) := rfl

/-- Projection of `splitFragmentQuery`: the scheme. -/
theorem sfq_scheme (scheme netloc url3 : Str) :
    (splitFragmentQuery scheme netloc url3).scheme = scheme := rfl

/-- Projection of `splitFragmentQuery`: the netloc. -/
theorem sfq_netloc (scheme netloc url3 : Str) :
    (splitFragmentQuery scheme netloc url3).netloc = netloc := rfl

/-- How `splitScheme` can behave: either no scheme split, or a validated
split at the first colon. -/
theorem splitScheme_spec (url : Str) :
    splitScheme url = ([], url) ∨
    ∃ pre rest, breakAt ':' url = (pre, some rest) ∧ schemeOk pre = true ∧
      splitScheme url = (pre.map asciiLower, rest) := by
  unfold splitScheme
  rcases hb : breakAt ':' url with ⟨pre, osnd⟩
  cases osnd with
  | none => exact Or.inl rfl
  | some rest =>
    by_cases hok : schemeOk pre = true
    · right
      refine ⟨pre, rest, rfl, hok, ?_⟩
      show (if schemeOk pre = true then (pre.map asciiLower, rest) else ([], url)) = _
      rw [if_pos hok]
    · left
      show (if schemeOk pre = true then (pre.map asciiLower, rest) else ([], url)) = _
      rw [if_neg hok]

/-- Decomposition of a successful `urlsplit`. -/
theorem urlsplit_decomp (u : Str) (s : SplitResult) (h : urlsplit u = some s) :
    ∃ netloc url3,
      s = splitFragmentQuery (splitScheme (pySanitize u)).1 netloc url3 ∧
      bracketMismatch netloc = false ∧
      (((splitScheme (pySanitize u)).2.take 2 = chars "//" ∧
        netloc = ((splitScheme (pySanitize u)).2.drop 2).takeWhile notNetlocDelim ∧
        url3 = ((splitScheme (pySanitize u)).2.drop 2).dropWhile notNetlocDelim) ∨
       ((splitScheme (pySanitize u)).2.take 2 ≠ chars "//" ∧ netloc = [] ∧
        url3 = (splitScheme (pySanitize u)).2)) := by
  simp only [urlsplit] at h
  by_cases h2 : (splitScheme (pySanitize u)).2.take 2 = chars "//"
  · rw [if_pos h2] at h
    by_cases hbr :
        bracketMismatch (((splitScheme (pySanitize u)).2.drop 2).takeWhile notNetlocDelim)
    · rw [if_pos hbr] at h
      cases h
    · rw [if_neg hbr] at h
      injection h with h
      exact ⟨_, _, h.symm, Bool.of_not_eq_true hbr, Or.inl ⟨h2, rfl, rfl⟩⟩
  · rw [if_neg h2] at h
    injection h with h
    exact ⟨[], _, h.symm, rfl, Or.inr ⟨h2, rfl, rfl⟩⟩

/-- Decomposition of a successful `urlparse` over its `urlsplit`. -/
theorem urlparse_decomp (u : Str) (p : ParseResult) (h : urlparse u = some p) :
    ∃ s, urlsplit u = some s ∧ p.scheme = s.scheme ∧ p.netloc = s.netloc ∧
      p.query = s.query ∧ p.fragment = s.fragment ∧
      ((p.path = s.path ∧ p.params = []) ∨
       (p.path = (splitparams s.path).1 ∧ p.params = (splitparams s.path).2 ∧
        usesParams.contains s.scheme = true ∧ s.path.contains ';' = true)) := by
  unfold urlparse at h
  cases hs : urlsplit u with
  | none => rw [hs] at h; cases h
  | some s =>
    rw [hs] at h
    replace h :
        (if usesParams.contains s.scheme = true ∧ s.path.contains ';' = true then
           some (⟨s.scheme, s.netloc, (splitparams s.path).1, (splitparams s.path).2,
                  s.query, s.fragment⟩ : ParseResult)
         else some ⟨s.scheme, s.netloc, s.path, [], s.query, s.fragment⟩) = some p := h
    by_cases hc : usesParams.contains s.scheme = true ∧ s.path.contains ';' = true
    · rw [if_pos hc] at h
      injection h with h
      refine ⟨s, rfl, ?_, ?_, ?_, ?_, Or.inr ⟨?_, ?_, hc.1, hc.2⟩⟩ <;> rw [← h]
    · rw [if_neg hc] at h
      injection h with h
      refine ⟨s, rfl, ?_, ?_, ?_, ?_, Or.inl ⟨?_, ?_⟩⟩ <;> rw [← h]

/-- `_splitparams` either leaves its input whole with empty params, or
decomposes it around a semicolon. -/
theorem splitparams_decomp (s : Str) :
    ((splitparams s).1 = s ∧ (splitparams s).2 = []) ∨
    s = (splitparams s).1 ++ ';' :: (splitparams s).2 := by
  unfold splitparams
  split
  · split
    case h_1 bRev aRev heq =>
      split
      case h_1 b1 b2 heq2 =>
        right
        have hd : s.reverse = bRev ++ '/' :: aRev := by
          have h9 := breakAt_decomp '/' s.reverse aRev (by rw [heq])
          rwa [heq] at h9
        have hd2 : bRev.reverse = b1 ++ ';' :: b2 := by
          have h9 := breakAt_decomp ';' bRev.reverse b2 (by rw [heq2])
          rwa [heq2] at h9
        have hs2 : s = aRev.reverse ++ '/' :: bRev.reverse := by
          have h9 := congrArg List.reverse hd
          rw [List.reverse_reverse] at h9
          rw [h9]
          simp
        rw [hs2, hd2]
        simp
      case h_2 =>
        left
        exact ⟨rfl, rfl⟩
    case h_2 =>
      left
      exact ⟨rfl, rfl⟩
  · split
    case h_1 u1 u2 heq =>
      right
      have h9 := breakAt_decomp ';' s u2 (by rw [heq])
      rwa [heq] at h9
    case h_2 =>
      left
      exact ⟨rfl, rfl⟩

/-- Characters of `(splitparams s).1` come from `s`. -/
theorem mem_of_mem_splitparams_fst {c : Char} {s : Str} (h : c ∈ (splitparams s).1) :
    c ∈ s := by
  rcases splitparams_decomp s with ⟨h1, _⟩ | h1
  · rwa [h1] at h
  · rw [h1]
    exact List.mem_append_left _ h

/-- Characters of `(splitparams s).2` come from `s`. -/
theorem mem_of_mem_splitparams_snd {c : Char} {s : Str} (h : c ∈ (splitparams s).2) :
    c ∈ s := by
  rcases splitparams_decomp s with ⟨_, h1⟩ | h1
  · rw [h1] at h
    cases h
  · rw [h1]
    exact List.mem_append_right _ (List.mem_cons_of_mem _ h)

/-- Where each character of `unsplitNetlocStep` comes from. -/
theorem mem_unsplitNetlocStep {c : Char} {scheme netloc url : Str}
    (h : c ∈ unsplitNetlocStep scheme netloc url) :
    c ∈ netloc ∨ c ∈ url ∨ c = '/' := by
  unfold unsplitNetlocStep at h
  split at h
  · rcases List.mem_cons.mp h with h1 | h1
    · exact Or.inr (Or.inr h1)
    rcases List.mem_cons.mp h1 with h2 | h2
    · exact Or.inr (Or.inr h2)
    rcases List.mem_append.mp h2 with h3 | h3
    · exact Or.inl h3
    split at h3
    · rcases List.mem_cons.mp h3 with h4 | h4
      · exact Or.inr (Or.inr h4)
      · exact Or.inr (Or.inl h4)
    · exact Or.inr (Or.inl h3)
  · exact Or.inr (Or.inl h)

/-- Where each character of `unsplitSchemeStep` comes from. -/
theorem mem_unsplitSchemeStep {c : Char} {scheme url : Str}
    (h : c ∈ unsplitSchemeStep scheme url) :
    c ∈ scheme ∨ c ∈ url ∨ c = ':' := by
  unfold unsplitSchemeStep at h
  split at h
  · rcases List.mem_append.mp h with h1 | h1
    · exact Or.inl h1
    rcases List.mem_cons.mp h1 with h2 | h2
    · exact Or.inr (Or.inr h2)
    · exact Or.inr (Or.inl h2)
  · exact Or.inr (Or.inl h)

/-- Where each character of `unsplitQueryStep` comes from. -/
theorem mem_unsplitQueryStep {c : Char} {url query : Str}
    (h : c ∈ unsplitQueryStep url query) :
    c ∈ url ∨ c ∈ query ∨ (c = '?' ∧ query ≠ []) := by
  unfold unsplitQueryStep at h
  split at h
  case isTrue hq =>
    rcases List.mem_append.mp h with h1 | h1
    · exact Or.inl h1
    rcases List.mem_cons.mp h1 with h2 | h2
    · exact Or.inr (Or.inr ⟨h2, hq⟩)
    · exact Or.inr (Or.inl h2)
  case isFalse => exact Or.inl h

/-- Where each character of `unsplitFragStep` comes from. -/
theorem mem_unsplitFragStep {c : Char} {url fragment : Str}
    (h : c ∈ unsplitFragStep url fragment) :
    c ∈ url ∨ c ∈ fragment ∨ (c = '#' ∧ fragment ≠ []) := by
  unfold unsplitFragStep at h
  split at h
  case isTrue hf =>
    rcases List.mem_append.mp h with h1 | h1
    · exact Or.inl h1
    rcases List.mem_cons.mp h1 with h2 | h2
    · exact Or.inr (Or.inr ⟨h2, hf⟩)
    · exact Or.inr (Or.inl h2)
  case isFalse => exact Or.inl h

/-- Where each character of an `urlunsplit` result can come from. -/
theorem mem_urlunsplit {c : Char} {scheme netloc url query fragment : Str}
    (h : c ∈ urlunsplit scheme netloc url query fragment) :
    c ∈ scheme ∨ c ∈ netloc ∨ c ∈ url ∨ c ∈ query ∨ c ∈ fragment ∨
      c = ':' ∨ c = '/' ∨ (c = '?' ∧ query ≠ []) ∨ (c = '#' ∧ fragment ≠ []) := by
  rcases mem_unsplitFragStep h with h1 | h1 | h1
  · rcases mem_unsplitQueryStep h1 with h2 | h2 | h2
    · rcases mem_unsplitSchemeStep h2 with h3 | h3 | h3
      · tauto
      · rcases mem_unsplitNetlocStep h3 with h4 | h4 | h4 <;> tauto
      · tauto
    · tauto
    · tauto
  · tauto
  · tauto

/-- `schemeOk` survives `asciiLower` mapping, which is then idempotent. -/
theorem schemeOk_map_lower (pre : Str) (h : schemeOk pre = true) :
    schemeOk (pre.map asciiLower) = true ∧
    (pre.map asciiLower).map asciiLower = pre.map asciiLower := by
  constructor
  · cases pre with
    | nil => cases h
    | cons c rest =>
      unfold schemeOk at h ⊢
      simp only [List.map_cons, Bool.and_eq_true, List.all_eq_true] at h ⊢
      obtain ⟨ha, hall⟩ := h
      refine ⟨isAsciiAlpha_asciiLower c ha, ?_⟩
      intro x hx
      rcases List.mem_cons.mp hx with h2 | h2
      · subst h2
        exact isSchemeChar_asciiLower c (hall c (List.mem_cons_self c rest))
      · rcases List.mem_map.mp h2 with ⟨y, hy, hxy⟩
        subst hxy
        exact isSchemeChar_asciiLower y (hall y (List.mem_cons_of_mem c hy))
  · rw [List.map_map]
    exact List.map_congr_left (fun c _ => asciiLower_idem c)

/-- The scheme of a successful `urlsplit` is empty or a validated, already
lowercased scheme. -/
theorem urlsplit_scheme_spec (u : Str) (s : SplitResult) (h : urlsplit u = some s) :
    s.scheme = [] ∨ (schemeOk s.scheme = true ∧ s.scheme.map asciiLower = s.scheme) := by
  obtain ⟨netloc, url3, hs, -, -⟩ := urlsplit_decomp u s h
  rcases splitScheme_spec (pySanitize u) with h1 | ⟨pre, rest, -, hok, h1⟩
  · left
    rw [hs, sfq_scheme, h1]
  · right
    rw [hs, sfq_scheme, h1]
    exact schemeOk_map_lower pre hok

/-- Every scheme character of a successful `urlsplit` is a `scheme_chars`
character. -/
theorem urlsplit_scheme_chars (u : Str) (s : SplitResult) (h : urlsplit u = some s) :
    ∀ c ∈ s.scheme, isSchemeChar c = true := by
  rcases urlsplit_scheme_spec u s h with h1 | ⟨h1, -⟩
  · rw [h1]
    intro c hc
    cases hc
  · intro c hc
    cases hsch : s.scheme with
    | nil => rw [hsch] at hc; cases hc
    | cons d rest =>
      rw [hsch] at h1 hc
      unfold schemeOk at h1
      simp only [Bool.and_eq_true, List.all_eq_true] at h1
      exact h1.2 c (by simpa using hc)

/-- Every netloc character of a successful `urlsplit` avoids the delimiters
`'/'`, `'?'`, `'#'`. -/
theorem urlsplit_netloc_chars (u : Str) (s : SplitResult) (h : urlsplit u = some s) :
    ∀ c ∈ s.netloc, notNetlocDelim c = true := by
  obtain ⟨netloc, url3, hs, -, hcase⟩ := urlsplit_decomp u s h
  rcases hcase with ⟨-, hn, -⟩ | ⟨-, hn, -⟩
  · rw [hs, sfq_netloc, hn]
    intro c hc
    exact List.mem_takeWhile_imp hc
  · rw [hs, sfq_netloc, hn]
    intro c hc
    cases hc

/-- A successful `urlsplit` produces no `'#'` in scheme, netloc, path or
query (the fragment split removed them all). -/
theorem urlsplit_no_hash (u : Str) (s : SplitResult) (h : urlsplit u = some s) :
    '#' ∉ s.scheme ∧ '#' ∉ s.netloc ∧ '#' ∉ s.path ∧ '#' ∉ s.query := by
  obtain ⟨netloc, url3, hs, -, -⟩ := urlsplit_decomp u s h
  refine ⟨?_, ?_, ?_, ?_⟩
  · intro hc
    have := urlsplit_scheme_chars u s h '#' hc
    exact absurd this (by decide)
  · intro hc
    have := urlsplit_netloc_chars u s h '#' hc
    exact absurd this (by decide)
  · intro hc
    rw [hs, sfq_path] at hc
    exact breakAt_not_mem_fst '#' url3 (mem_of_mem_breakAt_fst hc)
  · intro hc
    rw [hs, sfq_query] at hc
    cases hq : (breakAt '?' (breakAt '#' url3).1).2 with
    | none => rw [hq] at hc; cases hc
    | some r =>
      rw [hq, Option.getD_some] at hc
      have hr : '#' ∈ (breakAt '#' url3).1 := mem_of_mem_breakAt_snd hq hc
      exact breakAt_not_mem_fst '#' url3 hr

/-- A successful `urlparse` produces no `'#'` outside the fragment. -/
theorem urlparse_no_hash (u : Str) (p : ParseResult) (h : urlparse u = some p) :
    '#' ∉ p.scheme ∧ '#' ∉ p.netloc ∧ '#' ∉ p.path ∧ '#' ∉ p.params ∧ '#' ∉ p.query := by
  obtain ⟨s, hs, hsch, hn, hq, -, hcase⟩ := urlparse_decomp u p h
  obtain ⟨n1, n2, n3, n4⟩ := urlsplit_no_hash u s hs
  refine ⟨by rwa [hsch], by rwa [hn], ?_, ?_, by rwa [hq]⟩
  · rcases hcase with ⟨hp, -⟩ | ⟨hp, -, -, -⟩
    · rwa [hp]
    · rw [hp]
      intro hc
      exact n3 (mem_of_mem_splitparams_fst hc)
  · rcases hcase with ⟨-, hp⟩ | ⟨-, hp, -, -⟩
    · rw [hp]
      intro hc
      cases hc
    · rw [hp]
      intro hc
      exact n3 (mem_of_mem_splitparams_snd hc)

/-- Claim C6 (amended): `_normalize_url` strips the fragment — the result
never contains `'#'` — and, when the fragment-stripped URL ends in `'/'` and
the parsed path is longer than one character, removes *all* trailing slashes
(not exactly one): both spec examples hold, but `".../page//"` maps to
`".../page"`, not `".../page/"`. -/
theorem c6_normalize_strips :
    (∀ u v, Crawler._normalize_url u = some v → '#' ∉ v) ∧
    Crawler._normalize_url (chars "http://example.com/page/") =
      some (chars "http://example.com/page") ∧
    Crawler._normalize_url (chars "http://example.com/page#section") =
      some (chars "http://example.com/page") ∧
    Crawler._normalize_url (chars "http://example.com/page//") =
      some (chars "http://example.com/page") := by
  refine ⟨?_, by decide, by decide, by decide⟩
  intro u v h
  unfold Crawler._normalize_url at h
  cases hp : urlparse u with
  | none => rw [hp] at h; cases h
  | some p =>
    rw [hp, Option.map_some'] at h
    injection h with h
    obtain ⟨n1, n2, n3, n4, n5⟩ := urlparse_no_hash u p hp
    intro hmem
    rw [← h] at hmem
    have hmem2 : '#' ∈ urlunparse { p with fragment := [] } := by
      by_cases hcond :
          (urlunparse { p with fragment := [] } : Str).getLast? = some '/' ∧
            1 < p.path.length
      · simp only [if_pos hcond] at hmem
        exact mem_of_mem_rstripSlashes hmem
      · simp only [if_neg hcond] at hmem
        exact hmem
    unfold urlunparse at hmem2
    rcases mem_urlunsplit hmem2 with h1 | h1 | h1 | h1 | h1 | h1 | h1 | ⟨h1, -⟩ | ⟨-, h1⟩
    · exact n1 h1
    · exact n2 h1
    · split at h1
      · rcases List.mem_append.mp h1 with h2 | h2
        · exact n3 h2
        rcases List.mem_cons.mp h2 with h3 | h3
        · cases h3
        · exact n4 h3
      · exact n3 h1
    · exact n5 h1
    · cases h1
    · cases h1
    · cases h1
    · cases h1
    · exact h1 rfl

/-- `get_next_url` on an exhausted budget: `None`, state unchanged. -/
theorem get_next_url_budget (c : Crawler) (hb : c.scraped_count ≥ c.max_pages) :
    c.get_next_url = .ok (none, c) := by
  rw [Crawler.get_next_url]
  simp only [hb, if_true]

/-- `get_next_url` on an empty queue: `None`, state unchanged. -/
theorem get_next_url_empty (c : Crawler) (hb : ¬ c.scraped_count ≥ c.max_pages)
    (hq : c.queue = []) : c.get_next_url = .ok (none, c) := by
  rw [Crawler.get_next_url]
  simp only [hb, if_false]
  split
  · rfl
  · rename_i url2 depth2 rest2 hq2
    rw [hq] at hq2
    cases hq2

/-- `get_next_url` when the popped URL fails to parse: the `ValueError`
propagates with the entry consumed. -/
theorem get_next_url_raise (c : Crawler) (url : Str) (depth : Nat)
    (rest : List (Str × Nat)) (hb : ¬ c.scraped_count ≥ c.max_pages)
    (hq : c.queue = (url, depth) :: rest)
    (hn : Crawler._normalize_url url = none) :
    c.get_next_url = .error { c with queue := rest } := by
  rw [Crawler.get_next_url]
  simp only [hb, if_false]
  split
  · simp_all
  · rename_i url2 depth2 rest2 hq2
    rw [hq] at hq2
    injection hq2 with h1 h2
    injection h1 with hu hd
    subst hu
    subst hd
    subst h2
    rw [hn]

/-- `get_next_url` when the popped entry is skippable (already visited,
over-depth, or skip-matched): pop it and retry. -/
theorem get_next_url_skip (c : Crawler) (url nurl : Str) (depth : Nat)
    (rest : List (Str × Nat)) (hb : ¬ c.scraped_count ≥ c.max_pages)
    (hq : c.queue = (url, depth) :: rest)
    (hn : Crawler._normalize_url url = some nurl)
    (hskip : nurl ∈ c.visited ∨ depth > c.max_depth ∨ Crawler._should_skip nurl = true) :
    c.get_next_url = Crawler.get_next_url { c with queue := rest } := by
  rw [Crawler.get_next_url]
  simp only [hb, if_false]
  split
  · simp_all
  · rename_i url2 depth2 rest2 hq2
    rw [hq] at hq2
    injection hq2 with h1 h2
    injection h1 with hu hd
    subst hu
    subst hd
    subst h2
    rw [hn]
    by_cases hv : nurl ∈ c.visited
    · simp only [hv, if_pos]
    · rcases hskip with h3 | h3 | h3
      · exact absurd h3 hv
      · simp only [hv]
        simp only [if_false, h3, if_true]
      · simp only [hv]
        by_cases hd2 : depth > c.max_depth
        · simp only [if_false, hd2, if_true]
        · simp only [if_false, hd2, h3, if_true]

/-- `get_next_url` when the popped entry is acceptable: mark it visited,
record its depth, charge the budget and return it. -/
theorem get_next_url_accept (c : Crawler) (url nurl : Str) (depth : Nat)
    (rest : List (Str × Nat)) (hb : ¬ c.scraped_count ≥ c.max_pages)
    (hq : c.queue = (url, depth) :: rest)
    (hn : Crawler._normalize_url url = some nurl)
    (hv : nurl ∉ c.visited) (hd : ¬ depth > c.max_depth)
    (hs : Crawler._should_skip nurl = false) :
    c.get_next_url = .ok (some (nurl, depth),
      { c with queue := rest, visited := nurl :: c.visited,
               url_depths := (nurl, depth) :: c.url_depths,
               scraped_count := c.scraped_count + 1 }) := by
  rw [Crawler.get_next_url]
  simp only [hb, if_false]
  split
  · simp_all
  · rename_i url2 depth2 rest2 hq2
    rw [hq] at hq2
    injection hq2 with h1 h2
    injection h1 with hu hd2
    subst hu
    subst hd2
    subst h2
    rw [hn]
    simp only [hv, if_false, hd, hs, if_true, Bool.false_eq_true]

/-- Effect of one `get_next_url` call on the crawler's bookkeeping: an
accepted URL was unvisited, joins `visited`, and charges the budget exactly
once while the budget still had room; a `None` or an exception leaves
`visited` and `scraped_count` unchanged. -/
theorem get_next_url_effects : ∀ (n : Nat) (c : Crawler), c.queue.length ≤ n →
    (∀ u d c2, c.get_next_url = .ok (some (u, d), c2) →
       c.scraped_count < c.max_pages ∧ u ∉ c.visited ∧ c2.visited = u :: c.visited ∧
       c2.scraped_count = c.scraped_count + 1 ∧ c2.max_pages = c.max_pages) ∧
    (∀ c2, c.get_next_url = .ok (none, c2) ∨ c.get_next_url = .error c2 →
       c2.visited = c.visited ∧ c2.scraped_count = c.scraped_count ∧
       c2.max_pages = c.max_pages) := by
  intro n
  induction n with
  | zero =>
    intro c hlen
    have hq : c.queue = [] := List.length_eq_zero.mp (Nat.le_zero.mp hlen)
    by_cases hb : c.scraped_count ≥ c.max_pages
    · rw [get_next_url_budget c hb]
      constructor
      · intro u d c2 h
        simp at h
      · intro c2 h
        rcases h with h | h
        · injection h with h
          injection h with h1 h2
          subst h2
          exact ⟨rfl, rfl, rfl⟩
        · cases h
    · rw [get_next_url_empty c hb hq]
      constructor
      · intro u d c2 h
        simp at h
      · intro c2 h
        rcases h with h | h
        · injection h with h
          injection h with h1 h2
          subst h2
          exact ⟨rfl, rfl, rfl⟩
        · cases h
  | succ n ih =>
    intro c hlen
    by_cases hb : c.scraped_count ≥ c.max_pages
    · rw [get_next_url_budget c hb]
      constructor
      · intro u d c2 h
        simp at h
      · intro c2 h
        rcases h with h | h
        · injection h with h
          injection h with h1 h2
          subst h2
          exact ⟨rfl, rfl, rfl⟩
        · cases h
    · cases hq : c.queue with
      | nil =>
        rw [get_next_url_empty c hb hq]
        constructor
        · intro u d c2 h
          simp at h
        · intro c2 h
          rcases h with h | h
          · injection h with h
            injection h with h1 h2
            subst h2
            exact ⟨rfl, rfl, rfl⟩
          · cases h
      | cons e rest =>
        rcases e with ⟨url, depth⟩
        have hlen2 : rest.length ≤ n := by
          rw [hq] at hlen
          simpa using hlen
        cases hn : Crawler._normalize_url url with
        | none =>
          rw [get_next_url_raise c url depth rest hb hq hn]
          constructor
          · intro u d c2 h
            simp at h
          · intro c2 h
            rcases h with h | h
            · cases h
            · injection h with h
              subst h
              exact ⟨rfl, rfl, rfl⟩
        | some nurl =>
          by_cases hskip : nurl ∈ c.visited ∨ depth > c.max_depth ∨
              Crawler._should_skip nurl = true
          · rw [get_next_url_skip c url nurl depth rest hb hq hn hskip]
            have hrec := ih { c with queue := rest } hlen2
            constructor
            · intro u d c2 h
              exact hrec.1 u d c2 h
            · intro c2 h
              exact hrec.2 c2 h
          · push_neg at hskip
            obtain ⟨hv, hd, hs⟩ := hskip
            rw [get_next_url_accept c url nurl depth rest hb hq hn hv (by omega)
              (by simpa using hs)]
            constructor
            · intro u d c2 h
              injection h with h
              injection h with h1 h2
              injection h1 with h3
              injection h3 with h4 h5
              subst h4
              subst h2
              exact ⟨by omega, hv, rfl, rfl, rfl⟩
            · intro c2 h
              rcases h with h | h
              · injection h with h
                injection h with h1 h2
                cases h1
              · cases h

/-- `add_links` only touches the queue: visited set, budget and counters are
untouched. -/
theorem add_links_preserves (links : List Str) : ∀ (c : Crawler) (d : Nat),
    (c.add_links links d).visited = c.visited ∧
    (c.add_links links d).scraped_count = c.scraped_count ∧
    (c.add_links links d).max_pages = c.max_pages := by
  induction links with
  | nil => intro c d; exact ⟨rfl, rfl, rfl⟩
  | cons link rest ih =>
    intro c d
    rw [Crawler.add_links]
    split
    case h_1 => exact ⟨rfl, rfl, rfl⟩
    case h_2 normalized heq =>
      split_ifs with h1 h2 h3 h4 h5 <;> first | exact ih c d | exact ih _ d

/-- Invariant of `run`: starting under budget with duplicate-free visited
list, the accepted-URL count plus the starting count stays within the budget,
and the final state is under budget with a duplicate-free visited list. -/
theorem run_spec (ops : List CrawlOp) : ∀ (c : Crawler),
    c.scraped_count ≤ c.max_pages → c.visited.Nodup →
    (c.run ops).2 + c.scraped_count ≤ c.max_pages ∧
    (c.run ops).1.scraped_count ≤ (c.run ops).1.max_pages ∧
    (c.run ops).1.max_pages = c.max_pages ∧
    (c.run ops).1.visited.Nodup := by
  induction ops with
  | nil =>
    intro c hs hv
    exact ⟨by simpa [Crawler.run] using hs, by simpa [Crawler.run] using hs,
      rfl, hv⟩
  | cons op ops ih =>
    intro c hs hv
    cases op with
    | add links d =>
      rw [Crawler.run]
      obtain ⟨hpv, hps, hpm⟩ := add_links_preserves links c d
      have := ih (c.add_links links d) (by rw [hps, hpm]; exact hs) (by rw [hpv]; exact hv)
      rw [hps, hpm] at this
      exact this
    | next =>
      rw [Crawler.run]
      split
      case h_1 c1 hg =>
        obtain ⟨h1, h2, h3⟩ :=
          (get_next_url_effects c.queue.length c le_rfl).2 c1 (Or.inr hg)
        refine ⟨?_, ?_, ?_, ?_⟩
        · show 0 + c.scraped_count ≤ c.max_pages
          omega
        · show c1.scraped_count ≤ c1.max_pages
          rw [h2, h3]
          exact hs
        · show c1.max_pages = c.max_pages
          exact h3
        · show c1.visited.Nodup
          rw [h1]
          exact hv
      case h_2 c1 hg =>
        obtain ⟨h1, h2, h3⟩ :=
          (get_next_url_effects c.queue.length c le_rfl).2 c1 (Or.inl hg)
        have hrec := ih c1 (by rw [h2, h3]; exact hs) (by rw [h1]; exact hv)
        rw [h2, h3] at hrec
        exact hrec
      case h_3 x c1 hg =>
        rcases x with ⟨u, d⟩
        obtain ⟨h0, h1, h2, h3, h4⟩ :=
          (get_next_url_effects c.queue.length c le_rfl).1 u d c1 hg
        have hnodup : c1.visited.Nodup := by
          rw [h2]
          exact List.nodup_cons.mpr ⟨h1, hv⟩
        have hrec := ih c1 (by rw [h3, h4]; omega) hnodup
        rw [h3, h4] at hrec
        refine ⟨?_, hrec.2.1, hrec.2.2.1, hrec.2.2.2⟩
        show (c1.run ops).2 + 1 + c.scraped_count ≤ c.max_pages
        omega

/-- Claim C2: from a freshly constructed frontier with budget `maxPages`, any
interleaving of `next` and `addLinks` calls yields at most `maxPages`
accepted URLs; the scraped count never exceeds the budget, and the visited
list stays duplicate-free (each URL enters it at most once). -/
theorem c2_frontier_budget (start_url : Str) (max_pages max_depth : Nat)
    (pat : Option (Str → Bool)) (c0 : Crawler) (ops : List CrawlOp)
    (h : Crawler.init start_url max_pages max_depth pat = some c0) :
    (c0.run ops).2 ≤ max_pages ∧
    (c0.run ops).1.scraped_count ≤ max_pages ∧
    (c0.run ops).1.visited.Nodup := by
  have hfields : c0.scraped_count = 0 ∧ c0.visited = [] ∧ c0.max_pages = max_pages := by
    unfold Crawler.init at h
    cases hp : urlparse start_url with
    | none => rw [hp] at h; cases h
    | some p =>
      rw [hp] at h
      cases h
      exact ⟨rfl, rfl, rfl⟩
  obtain ⟨h1, h2, h3⟩ := hfields
  have := run_spec ops c0 (by omega) (by rw [h2]; exact List.nodup_nil)
  rw [h1, h3] at this
  exact ⟨by omega, by rw [← this.2.2.1]; exact this.2.1, this.2.2.2⟩

/-- Claim C2 witness: a fresh frontier with budget 2, driven by four `next`
calls and one `addLinks` call. -/
theorem c2_frontier_budget_witness :
    (((⟨chars "http://example.com", 2, 3, none, chars "http://example.com", [],
        [], [], [(chars "http://example.com", 0)], 0⟩ : Crawler).run
      [CrawlOp.next, CrawlOp.add [chars "http://example.com/a"] 0,
       CrawlOp.next, CrawlOp.next, CrawlOp.next]).2 ≤ 2 ∧
     ((⟨chars "http://example.com", 2, 3, none, chars "http://example.com", [],
        [], [], [(chars "http://example.com", 0)], 0⟩ : Crawler).run
      [CrawlOp.next, CrawlOp.add [chars "http://example.com/a"] 0,
       CrawlOp.next, CrawlOp.next, CrawlOp.next]).1.scraped_count ≤ 2 ∧
     ((⟨chars "http://example.com", 2, 3, none, chars "http://example.com", [],
        [], [], [(chars "http://example.com", 0)], 0⟩ : Crawler).run
      [CrawlOp.next, CrawlOp.add [chars "http://example.com/a"] 0,
       CrawlOp.next, CrawlOp.next, CrawlOp.next]).1.visited.Nodup) :=
  c2_frontier_budget (chars "http://example.com") 2 3 none
    ⟨chars "http://example.com", 2, 3, none, chars "http://example.com", [],
     [], [], [(chars "http://example.com", 0)], 0⟩
    [CrawlOp.next, CrawlOp.add [chars "http://example.com/a"] 0,
     CrawlOp.next, CrawlOp.next, CrawlOp.next] rfl

/-- The recursion depth of `get_next_url` is bounded by the queue length
(strong induction helper). -/
theorem get_next_url_steps_le_aux : ∀ (n : Nat) (c : Crawler), c.queue.length ≤ n →
    c.get_next_url_steps ≤ c.queue.length := by
  intro n
  induction n with
  | zero =>
    intro c hlen
    rw [Crawler.get_next_url_steps]
    have hq : c.queue = [] := List.length_eq_zero.mp (Nat.le_zero.mp hlen)
    split
    · omega
    · split
      · omega
      · rename_i hq2
        rw [hq] at hq2
        cases hq2
  | succ n ih =>
    intro c hlen
    rw [Crawler.get_next_url_steps]
    split
    · omega
    · split
      · omega
      · rename_i hb url depth rest hq
        have hrest : rest.length ≤ n := by
          rw [hq] at hlen
          simpa using hlen
        have hlen2 : ({ c with queue := rest } : Crawler).get_next_url_steps ≤ rest.length :=
          ih { c with queue := rest } hrest
        rw [hq]
        split
        · simp
        · rename_i nurl hn
          by_cases hv : nurl ∈ c.visited
          · simp only [hv, if_true, List.length_cons]
            omega
          · simp only [hv, if_false]
            by_cases hd : depth > c.max_depth
            · simp only [hd, if_true, List.length_cons]
              omega
            · simp only [hd, if_false]
              by_cases hs : Crawler._should_skip nurl = true
              · simp only [hs, if_true, List.length_cons]
                omega
              · simp only [hs, Bool.false_eq_true, if_false, List.length_cons]
                omega

/-- `get_next_url` on an all-skippable queue (every entry visited, over
depth, or skip-matched after normalization) returns `None` (strong induction
helper). -/
theorem get_next_url_pathological_aux : ∀ (n : Nat) (c : Crawler), c.queue.length ≤ n →
    (∀ u d, (u, d) ∈ c.queue → ∃ m, Crawler._normalize_url u = some m ∧
       (m ∈ c.visited ∨ d > c.max_depth ∨ Crawler._should_skip m = true)) →
    ∃ c2, c.get_next_url = .ok (none, c2) := by
  intro n
  induction n with
  | zero =>
    intro c hlen hpath
    have hq : c.queue = [] := List.length_eq_zero.mp (Nat.le_zero.mp hlen)
    by_cases hb : c.scraped_count ≥ c.max_pages
    · exact ⟨c, get_next_url_budget c hb⟩
    · exact ⟨c, get_next_url_empty c hb hq⟩
  | succ n ih =>
    intro c hlen hpath
    by_cases hb : c.scraped_count ≥ c.max_pages
    · exact ⟨c, get_next_url_budget c hb⟩
    cases hq : c.queue with
    | nil => exact ⟨c, get_next_url_empty c hb hq⟩
    | cons e rest =>
      rcases e with ⟨url, depth⟩
      obtain ⟨m, hm, hcond⟩ := hpath url depth (by rw [hq]; exact List.mem_cons_self _ _)
      have hstep := get_next_url_skip c url m depth rest hb hq hm hcond
      have hrest : rest.length ≤ n := by
        rw [hq] at hlen
        simpa using hlen
      have hpath2 : ∀ u d, (u, d) ∈ ({ c with queue := rest } : Crawler).queue →
          ∃ m2, Crawler._normalize_url u = some m2 ∧
            (m2 ∈ ({ c with queue := rest } : Crawler).visited ∨
             d > ({ c with queue := rest } : Crawler).max_depth ∨
             Crawler._should_skip m2 = true) := by
        intro u d hmem
        exact hpath u d (by rw [hq]; exact List.mem_cons_of_mem _ hmem)
      obtain ⟨c2, hc2⟩ := ih { c with queue := rest } hrest hpath2
      exact ⟨c2, hstep.trans hc2⟩

/-- Claim C9: `get_next_url` terminates on every frontier state — its
recursion pops one queue entry per step, so the number of skip-and-retry
steps is bounded by the queue length — and on a pathological queue made
entirely of skippable entries (each one visited, over-depth, or skip-matched
after normalization) it returns `None`. -/
theorem c9_next_terminates :
    (∀ c : Crawler, c.get_next_url_steps ≤ c.queue.length) ∧
    (∀ c : Crawler,
       (∀ u d, (u, d) ∈ c.queue → ∃ m, Crawler._normalize_url u = some m ∧
          (m ∈ c.visited ∨ d > c.max_depth ∨ Crawler._should_skip m = true)) →
       ∃ c2, c.get_next_url = .ok (none, c2)) :=
  ⟨fun c => get_next_url_steps_le_aux c.queue.length c le_rfl,
   fun c h => get_next_url_pathological_aux c.queue.length c le_rfl h⟩

/-- Claim C9 witness: a frontier whose queue holds only a skip-matched
`/login` URL, an over-depth URL and an already-visited URL returns `None`. -/
theorem c9_next_terminates_witness :
    ∃ c2, Crawler.get_next_url
      { start_url := chars "http://example.com", max_pages := 5, max_depth := 3,
        url_pattern := none, base_domain := chars "http://example.com",
        base_path := [], visited := [chars "http://example.com/seen"],
        url_depths := [], scraped_count := 0,
        queue := [(chars "http://example.com/login", 0),
                  (chars "http://example.com/deep", 7),
                  (chars "http://example.com/seen", 1)] } = .ok (none, c2) := by
  apply c9_next_terminates.2
  intro u d hmem
  simp only [List.mem_cons, List.mem_singleton, Prod.mk.injEq] at hmem
  rcases hmem with ⟨hu, hd⟩ | ⟨hu, hd⟩ | ⟨hu, hd⟩ | hfalse
  · subst hu
    exact ⟨chars "http://example.com/login", by decide, Or.inr (Or.inr (by decide))⟩
  · subst hu
    subst hd
    exact ⟨chars "http://example.com/deep", by decide, Or.inr (Or.inl (by decide))⟩
  · subst hu
    exact ⟨chars "http://example.com/seen", by decide, Or.inl (by decide)⟩
  · cases hfalse

/-- Claim C8: `add_links` applies no depth filtering — a link that passes
the domain, visited, skip-pattern, urlPattern and duplicate checks is
enqueued at `currentDepth + 1` no matter how that compares to `maxDepth`
(the statement quantifies over every `d`, including `d + 1 > maxDepth`) —
and an over-depth entry is discarded only when `get_next_url` dequeues it. -/
theorem c8_add_links_depth :
    (∀ (c : Crawler) (l n : Str) (d : Nat),
       Crawler._normalize_url l = some n →
       c._is_same_domain n = true →
       n ∉ c.visited →
       Crawler._should_skip n = false →
       (∀ pat, c.url_pattern = some pat → pat n = true) →
       c.queue.any (fun e => e.1 == n) = false →
       (c.add_links [l] d).queue = c.queue ++ [(n, d + 1)]) ∧
    (∀ (c : Crawler) (u m : Str) (depth : Nat) (rest : List (Str × Nat)),
       c.queue = (u, depth) :: rest →
       Crawler._normalize_url u = some m →
       m ∉ c.visited → depth > c.max_depth →
       ¬ c.scraped_count ≥ c.max_pages →
       c.get_next_url = Crawler.get_next_url { c with queue := rest }) := by
  constructor
  · intro c l n d hn hdom hvis hskip hpat hq
    rw [Crawler.add_links]
    split
    case h_1 heq =>
      simp [hn] at heq
    case h_2 m heq =>
      rw [hn] at heq
      injection heq with heq
      subst heq
      split_ifs with h1 h2 h3
      · exact absurd h1 (by simp [hskip])
      · exfalso
        cases hp : c.url_pattern with
        | none => rw [hp] at h2; simp at h2
        | some pat => rw [hp] at h2; simp [hpat pat hp] at h2
      · rw [hq] at h3
        cases h3
      · rfl
  · intro c u m depth rest hq hm hv hd hb
    exact get_next_url_skip c u m depth rest hb hq hm (Or.inr (Or.inl hd))

/-- Claim C8 witness: a crawler with `maxDepth = 3` enqueues a clean link at
depth 9 (far beyond the limit), and `get_next_url` then discards an
over-depth head entry at dequeue time. -/
theorem c8_add_links_depth_witness :
    (Crawler.add_links
      { start_url := chars "http://example.com", max_pages := 5, max_depth := 3,
        url_pattern := none, base_domain := chars "http://example.com",
        base_path := [], visited := [], url_depths := [], scraped_count := 0,
        queue := [(chars "http://example.com", 0)] }
      [chars "http://example.com/sub"] 8).queue =
      [(chars "http://example.com", 0)] ++ [(chars "http://example.com/sub", 9)] ∧
    Crawler.get_next_url
      { start_url := chars "http://example.com", max_pages := 5, max_depth := 3,
        url_pattern := none, base_domain := chars "http://example.com",
        base_path := [], visited := [], url_depths := [], scraped_count := 0,
        queue := [(chars "http://example.com/sub", 9)] } =
    Crawler.get_next_url
      { start_url := chars "http://example.com", max_pages := 5, max_depth := 3,
        url_pattern := none, base_domain := chars "http://example.com",
        base_path := [], visited := [], url_depths := [], scraped_count := 0,
        queue := [] } :=
  ⟨c8_add_links_depth.1 _ (chars "http://example.com/sub")
      (chars "http://example.com/sub") 8 (by decide) (by decide) (by decide)
      (by decide) (fun pat hp => by cases hp) (by decide),
   c8_add_links_depth.2 _ (chars "http://example.com/sub")
      (chars "http://example.com/sub") 9 [] rfl (by decide) (by decide)
      (by decide) (by decide)⟩

/-- Claim C6 witness: the fragment-stripping conjunct of the amended claim at
a concrete URL. -/
theorem c6_normalize_strips_witness :
    Crawler._normalize_url (chars "http://a/b#frag") = some (chars "http://a/b") ∧
    '#' ∉ chars "http://a/b" :=
  ⟨by decide, c6_normalize_strips.1 (chars "http://a/b#frag") (chars "http://a/b") (by decide)⟩

/-- Claim C6, counterexample: the claim says *exactly one* trailing slash is
removed, but `rstrip("/")` removes them all — `".../page//"` normalizes to
`".../page"`, not `".../page/"`. -/
theorem c6_normalize_strips_counterexample :
    Crawler._normalize_url (chars "http://example.com/page//") =
      some (chars "http://example.com/page") ∧
    chars "http://example.com/page" ≠ chars "http://example.com/page/" := by
  decide

/-- Claim C5, counterexample: normalization is not idempotent.  A slash-only
query collapses in two steps (`"http://a/b?//"` → `"http://a/b?"` →
`"http://a/b"`); a `uses_netloc` scheme with a slash-only path loses and then
regains its `"//"` (`"http:////"` → `"http:"` → `"http://"`); a path of
slashes swallows two leading slashes per pass (`"/////a"` → `"///a"` →
`"/a"`); and a params-like path drops a trailing `';'` on the second pass
(`";/"` → `";"` → `""`). -/
theorem c5_normalize_idem_counterexample :
    (Crawler._normalize_url (chars "http://a/b?//") = some (chars "http://a/b?") ∧
     Crawler._normalize_url (chars "http://a/b?") = some (chars "http://a/b") ∧
     chars "http://a/b?" ≠ chars "http://a/b") ∧
    (Crawler._normalize_url (chars "http:////") = some (chars "http:") ∧
     Crawler._normalize_url (chars "http:") = some (chars "http://") ∧
     chars "http:" ≠ chars "http://") ∧
    (Crawler._normalize_url (chars "/////a") = some (chars "///a") ∧
     Crawler._normalize_url (chars "///a") = some (chars "/a") ∧
     chars "///a" ≠ chars "/a") ∧
    (Crawler._normalize_url (chars ";/") = some (chars ";") ∧
     Crawler._normalize_url (chars ";") = some (chars "") ∧
     chars ";" ≠ chars "") := by
  decide

/-! ## Toward claim C5: list-level lemmas -/

/-- `breakAt` at an explicit first occurrence. -/
theorem breakAt_append (t : Char) (a b : Str) (h : t ∉ a) :
    breakAt t (a ++ t :: b) = (a, some b) := by
  induction a with
  | nil => simp [breakAt]
  | cons c rest ih =>
    have hct : ¬ c = t := fun he => h (he ▸ List.mem_cons_self c rest)
    have hrest : t ∉ rest := fun hm => h (List.mem_cons_of_mem c hm)
    simp only [List.cons_append, breakAt, if_neg hct]
    rw [show rest.append (t :: b) = rest ++ t :: b from rfl, ih hrest]

/-- The first component of `breakAt` is a prefix of the input. -/
theorem breakAt_fst_pre (t : Char) (s : Str) : (breakAt t s).1 <+: s := by
  cases hsnd : (breakAt t s).2 with
  | none => rw [breakAt_fst_of_none t s hsnd]
  | some r => exact ⟨t :: r, (breakAt_decomp t s r hsnd).symm⟩

/-- `takeWhile` walks through a block of satisfying elements. -/
theorem takeWhile_append_all (p : Char → Bool) (a b : Str)
    (h : ∀ c ∈ a, p c = true) : (a ++ b).takeWhile p = a ++ b.takeWhile p := by
  induction a with
  | nil => simp
  | cons c rest ih =>
    have hc : p c = true := h c (List.mem_cons_self c rest)
    simp only [List.cons_append, List.takeWhile_cons, hc, if_true]
    rw [ih (fun x hx => h x (List.mem_cons_of_mem c hx))]

/-- `dropWhile` walks through a block of satisfying elements. -/
theorem dropWhile_append_all (p : Char → Bool) (a b : Str)
    (h : ∀ c ∈ a, p c = true) : (a ++ b).dropWhile p = b.dropWhile p := by
  induction a with
  | nil => simp
  | cons c rest ih =>
    have hc : p c = true := h c (List.mem_cons_self c rest)
    simp only [List.cons_append, List.dropWhile_cons, hc, if_true]
    exact ih (fun x hx => h x (List.mem_cons_of_mem c hx))

/-- A list whose head fails the predicate is untouched by
`takeWhile`/`dropWhile`. -/
theorem takeWhile_head_false (p : Char → Bool) (b : Str)
    (h : b = [] ∨ ∀ c, b.head? = some c → p c = false) :
    b.takeWhile p = [] ∧ b.dropWhile p = b := by
  cases b with
  | nil => exact ⟨rfl, rfl⟩
  | cons c rest =>
    rcases h with h | h
    · cases h
    · have hc : p c = false := h c rfl
      simp [List.takeWhile_cons, List.dropWhile_cons, hc]

/-- `rstripSlashes` produces a prefix of its input. -/
theorem rstripSlashes_pre (s : Str) : rstripSlashes s <+: s := by
  unfold rstripSlashes
  have h1 : s.reverse.dropWhile (fun c => c = '/') <:+ s.reverse :=
    List.dropWhile_suffix _
  obtain ⟨t, ht⟩ := h1
  refine ⟨t.reverse, ?_⟩
  have h2 := congrArg List.reverse ht
  simpa using h2

/-- `rstripSlashes` is the identity on a list that does not end in `'/'`. -/
theorem rstripSlashes_eq_self (s : Str) (h : s.getLast? ≠ some '/') :
    rstripSlashes s = s := by
  unfold rstripSlashes
  cases hr : s.reverse with
  | nil =>
    have hs : s = [] := by simpa using congrArg List.reverse hr
    simp [hs]
  | cons c rest =>
    have hc : c ≠ '/' := by
      intro he
      apply h
      rw [← List.head?_reverse, hr, he]
      rfl
    rw [List.dropWhile_cons, if_neg (by simpa using hc)]
    rw [← hr, List.reverse_reverse]

/-- `rstripSlashes` gives `[]` exactly on all-slash lists. -/
theorem rstripSlashes_eq_nil_iff (s : Str) :
    rstripSlashes s = [] ↔ ∀ c ∈ s, c = '/' := by
  unfold rstripSlashes
  rw [List.reverse_eq_nil_iff, List.dropWhile_eq_nil_iff]
  constructor
  · intro h c hc
    simpa using h c (List.mem_reverse.mpr hc)
  · intro h c hc
    simpa using h c (List.mem_reverse.mp hc)

/-- Stripping trailing slashes stays inside the last block when that block
does not strip to nothing. -/
theorem rstripSlashes_append_of_ne_nil (x y : Str) (h : rstripSlashes y ≠ []) :
    rstripSlashes (x ++ y) = x ++ rstripSlashes y := by
  unfold rstripSlashes at h ⊢
  rw [List.reverse_append, List.dropWhile_append]
  have hne : (y.reverse.dropWhile (fun c => c = '/')).isEmpty = false := by
    rw [List.isEmpty_eq_false_iff_exists_mem]
    cases hd : y.reverse.dropWhile (fun c => c = '/') with
    | nil => rw [hd] at h; simp at h
    | cons c rest => exact ⟨c, hd ▸ List.mem_cons_self c rest⟩
  rw [hne]
  simp

/-- Stripping trailing slashes passes through an all-slash last block. -/
theorem rstripSlashes_append_of_nil (x y : Str) (h : rstripSlashes y = []) :
    rstripSlashes (x ++ y) = rstripSlashes x := by
  unfold rstripSlashes at h ⊢
  rw [List.reverse_append, List.dropWhile_append]
  have hne : (y.reverse.dropWhile (fun c => c = '/')).isEmpty = true := by
    rw [List.isEmpty_iff]
    simpa using h
  rw [hne]
  simp

/-- Stripping trailing slashes from `x ++ y` stays inside `y` whenever `x`
ends in a non-slash character. -/
theorem rstripSlashes_append_getLast (x y : Str) (d : Char)
    (hx : x.getLast? = some d) (hd : d ≠ '/') :
    rstripSlashes (x ++ y) = x ++ rstripSlashes y := by
  by_cases h : rstripSlashes y = []
  · rw [rstripSlashes_append_of_nil x y h, h, List.append_nil]
    exact rstripSlashes_eq_self x (by rw [hx]; simpa using hd)
  · exact rstripSlashes_append_of_ne_nil x y h

/-- A nonempty prefix shares its head with the full list. -/
theorem prefix_head (x y : Str) (h : x <+: y) (hx : x ≠ []) : y.head? = x.head? := by
  obtain ⟨t, ht⟩ := h
  subst ht
  cases x with
  | nil => exact absurd rfl hx
  | cons c rest => rfl

/-- A prefix that starts `"//"` forces the full list to start `"//"`. -/
theorem prefix_take_two (x y : Str) (h : x <+: y) (h2 : x.take 2 = chars "//") :
    y.take 2 = chars "//" := by
  obtain ⟨t, ht⟩ := h
  subst ht
  have hlen : 2 ≤ x.length := by
    by_contra hlt
    push_neg at hlt
    have := congrArg List.length h2
    simp only [List.length_take] at this
    have h3 : x.length < 2 → min 2 x.length = x.length := by omega
    rw [h3 (by omega)] at this
    simp [chars] at this
    omega
  rw [List.take_append_of_le_length hlen]
  exact h2

/-- The last element of a list is one of its elements. -/
theorem getLast?_mem (s : Str) (c : Char) (h : s.getLast? = some c) : c ∈ s := by
  induction s with
  | nil => cases h
  | cons d rest ih =>
    cases hr : rest with
    | nil =>
      rw [hr] at h
      simp only [List.getLast?_singleton] at h
      injection h with h
      rw [h]
      exact List.mem_cons_self _ _
    | cons e rest2 =>
      rw [hr] at h ih
      rw [List.getLast?_cons_cons] at h
      exact List.mem_cons_of_mem _ (ih h)

/-- Unsafe bytes are in the C0/space range. -/
theorem unsafe_isC0 (c : Char) (h : isUnsafeByte c = true) : isC0OrSpace c = true := by
  unfold isUnsafeByte at h
  simp only [Bool.or_eq_true, decide_eq_true_eq] at h
  rcases h with (h | h) | h <;> rw [h] <;> decide

/-- Characters surviving sanitisation come from the original string. -/
theorem mem_sanitize_sub {c : Char} {u : Str} (h : c ∈ pySanitize u) : c ∈ u := by
  unfold pySanitize at h
  have h1 := List.mem_of_mem_filter h
  exact (List.dropWhile_sublist _).mem h1

/-- Sanitised strings contain no unsafe bytes. -/
theorem sanitize_no_unsafe (u : Str) : ∀ c ∈ pySanitize u, isUnsafeByte c = false := by
  intro c hc
  unfold pySanitize at hc
  have := List.of_mem_filter hc
  simpa using this

/-- Sanitised strings do not start with a C0 control or space. -/
theorem sanitize_head (u : Str) :
    ∀ c, (pySanitize u).head? = some c → isC0OrSpace c = false := by
  intro c hc
  unfold pySanitize at hc
  cases hd : u.dropWhile isC0OrSpace with
  | nil => rw [hd] at hc; cases hc
  | cons d rest =>
    have hdC0 : isC0OrSpace d = false := by
      have := List.head?_dropWhile_not isC0OrSpace u
      rw [hd] at this
      simpa using this
    have hdun : isUnsafeByte d = false := by
      cases hud : isUnsafeByte d
      · rfl
      · rw [unsafe_isC0 d hud] at hdC0; cases hdC0
    rw [hd] at hc
    rw [List.filter_cons, if_pos (by simp [hdun])] at hc
    injection hc with hc
    rw [← hc]
    exact hdC0

/-- Sanitisation is the identity on clean strings. -/
theorem sanitize_eq_self (v : Str)
    (hun : ∀ c ∈ v, isUnsafeByte c = false)
    (hhead : ∀ c, v.head? = some c → isC0OrSpace c = false) :
    pySanitize v = v := by
  unfold pySanitize
  have hdrop : v.dropWhile isC0OrSpace = v := by
    cases hv : v with
    | nil => rfl
    | cons c rest =>
      rw [List.dropWhile_cons, if_neg]
      rw [hhead c (by rw [hv]; rfl)]
      simp
  rw [hdrop]
  rw [List.filter_eq_self.mpr]
  intro c hc
  simp [hun c hc]

/-- `scheme_chars` strings contain no `':'`. -/
theorem schemeOk_no_colon (sch : Str) (h : schemeOk sch = true) : ':' ∉ sch := by
  intro hc
  cases sch with
  | nil => cases hc
  | cons c rest =>
    unfold schemeOk at h
    simp only [Bool.and_eq_true, List.all_eq_true] at h
    have := h.2 ':' hc
    exact absurd this (by decide)

/-- Three-way behaviour of `splitScheme`. -/
theorem splitScheme_cases (url : Str) :
    ((breakAt ':' url).2 = none ∧ splitScheme url = ([], url)) ∨
    (∃ pre rest, breakAt ':' url = (pre, some rest) ∧ schemeOk pre = false ∧
      splitScheme url = ([], url)) ∨
    (∃ pre rest, breakAt ':' url = (pre, some rest) ∧ schemeOk pre = true ∧
      splitScheme url = (pre.map asciiLower, rest)) := by
  unfold splitScheme
  rcases hb : breakAt ':' url with ⟨pre, osnd⟩
  cases osnd with
  | none => exact Or.inl ⟨rfl, rfl⟩
  | some rest =>
    by_cases hok : schemeOk pre = true
    · refine Or.inr (Or.inr ⟨pre, rest, rfl, hok, ?_⟩)
      show (if schemeOk pre = true then (pre.map asciiLower, rest) else ([], url)) = _
      rw [if_pos hok]
    · refine Or.inr (Or.inl ⟨pre, rest, rfl, by simpa using hok, ?_⟩)
      show (if schemeOk pre = true then (pre.map asciiLower, rest) else ([], url)) = _
      rw [if_neg hok]

/-- A string starting with `'/'` admits no scheme split. -/
theorem splitScheme_slash (v : Str) (h : v.head? = some '/') :
    splitScheme v = ([], v) := by
  rcases splitScheme_cases v with ⟨-, h1⟩ | ⟨pre, rest, hb, hok, h1⟩ | ⟨pre, rest, hb, hok, h1⟩
  · exact h1
  · exact h1
  · exfalso
    have hd := breakAt_decomp ':' v rest (by rw [hb])
    rw [hb] at hd
    cases hpre : pre with
    | nil => rw [hpre] at hok; cases hok
    | cons c rest2 =>
      rw [hpre] at hd hok
      rw [hd] at h
      injection h with h
      unfold schemeOk at hok
      simp only [Bool.and_eq_true] at hok
      rw [h] at hok
      exact absurd hok.1 (by decide)

/-- Re-splitting a rebuilt `scheme ++ ':' ++ rest`. -/
theorem splitScheme_build (sch rest : Str) (hok : schemeOk sch = true)
    (hlow : sch.map asciiLower = sch) :
    splitScheme (sch ++ ':' :: rest) = (sch, rest) := by
  unfold splitScheme
  rw [breakAt_append ':' sch rest (schemeOk_no_colon sch hok)]
  show (if schemeOk sch = true then (sch.map asciiLower, rest)
        else ([], sch ++ ':' :: rest)) = (sch, rest)
  rw [if_pos hok, hlow]

/-- A no-scheme result transfers to every prefix. -/
theorem splitScheme_prefix (w v : Str) (hpre : v <+: w)
    (hsp : splitScheme w = ([], w)) : splitScheme v = ([], v) := by
  rcases splitScheme_cases v with ⟨-, h1⟩ | ⟨pre, rest, hb, hok, h1⟩ | ⟨pre, rest, hb, hok, h1⟩
  · exact h1
  · exact h1
  · exfalso
    obtain ⟨tail, htail⟩ := hpre
    have hd := breakAt_decomp ':' v rest (by rw [hb])
    rw [hb] at hd
    have hnc : ':' ∉ pre := by
      have := breakAt_not_mem_fst ':' v
      rwa [hb] at this
    have hw : w = pre ++ ':' :: (rest ++ tail) := by
      rw [← htail, hd]
      simp
    have hbw : breakAt ':' w = (pre, some (rest ++ tail)) := by
      rw [hw]
      exact breakAt_append ':' pre (rest ++ tail) hnc
    rcases splitScheme_cases w with ⟨h2, -⟩ | ⟨pre2, rest2, hb2, hok2, -⟩ |
        ⟨pre2, rest2, hb2, hok2, h2⟩
    · rw [hbw] at h2
      cases h2
    · rw [hbw] at hb2
      injection hb2 with hb2a hb2b
      rw [← hb2a, hok] at hok2
      cases hok2
    · rw [h2] at hsp
      injection hsp with hsp1 hsp2
      have : pre2 ≠ [] := by
        cases hp2 : pre2 with
        | nil => rw [hp2] at hok2; cases hok2
        | cons a b => simp
      cases hp2 : pre2 with
      | nil => rw [hp2] at hok2; cases hok2
      | cons a b =>
        rw [hp2] at hsp1
        cases hsp1

/-- `splitFragmentQuery` on a `'#'`- and `'?'`-free url is trivial. -/
theorem sfq_clean (scheme netloc x : Str) (h1 : '#' ∉ x) (h2 : '?' ∉ x) :
    splitFragmentQuery scheme netloc x = ⟨scheme, netloc, x, [], []⟩ := by
  simp only [splitFragmentQuery, breakAt_of_not_mem '#' x h1,
    breakAt_of_not_mem '?' x h2, Option.getD_none]

/-- `unsplitSchemeStep` with no scheme. -/
theorem unsplitSchemeStep_nil (url : Str) : unsplitSchemeStep [] url = url := by
  simp [unsplitSchemeStep]

/-- `unsplitSchemeStep` with a scheme. -/
theorem unsplitSchemeStep_cons (sch url : Str) (h : sch ≠ []) :
    unsplitSchemeStep sch url = sch ++ ':' :: url := by
  simp [unsplitSchemeStep, h]

/-- `unsplitQueryStep` with no query. -/
theorem unsplitQueryStep_nil (url : Str) : unsplitQueryStep url [] = url := by
  simp [unsplitQueryStep]

/-- `unsplitFragStep` with no fragment. -/
theorem unsplitFragStep_nil (url : Str) : unsplitFragStep url [] = url := by
  simp [unsplitFragStep]

/-- `unsplitNetlocStep` when `'//'` is re-attached and the url part needs no
leading slash. -/
theorem unsplitNetlocStep_pos (sch nl tail : Str)
    (hcond : nl ≠ [] ∨ (sch ≠ [] ∧ usesNetloc.contains sch = true ∧
      tail.take 2 ≠ chars "//"))
    (htail : tail = [] ∨ tail.head? = some '/') :
    unsplitNetlocStep sch nl tail = '/' :: '/' :: (nl ++ tail) := by
  unfold unsplitNetlocStep
  have hguard : ¬ (tail ≠ [] ∧ tail.head? ≠ some '/') := by
    rcases htail with h | h
    · intro hcon; exact hcon.1 h
    · intro hcon; exact hcon.2 h
  have hcond' := hcond
  rw [show chars "//" = (['/', '/'] : Str) from rfl] at hcond'
  rw [if_pos hcond', if_neg hguard]

/-- `unsplitNetlocStep` when `'//'` is re-attached and a `'/'` is inserted. -/
theorem unsplitNetlocStep_pos_prepend (sch nl tail : Str)
    (hcond : nl ≠ [] ∨ (sch ≠ [] ∧ usesNetloc.contains sch = true ∧
      tail.take 2 ≠ chars "//"))
    (htail : tail ≠ [] ∧ tail.head? ≠ some '/') :
    unsplitNetlocStep sch nl tail = '/' :: '/' :: (nl ++ '/' :: tail) := by
  unfold unsplitNetlocStep
  have hcond' := hcond
  rw [show chars "//" = (['/', '/'] : Str) from rfl] at hcond'
  rw [if_pos hcond', if_pos htail]

/-- `unsplitNetlocStep` when nothing is re-attached. -/
theorem unsplitNetlocStep_neg (sch nl tail : Str)
    (hcond : ¬ (nl ≠ [] ∨ (sch ≠ [] ∧ usesNetloc.contains sch = true ∧
      tail.take 2 ≠ chars "//"))) :
    unsplitNetlocStep sch nl tail = tail := by
  unfold unsplitNetlocStep
  have hcond' := hcond
  rw [show chars "//" = (['/', '/'] : Str) from rfl] at hcond'
  rw [if_neg hcond']

/-- Characters of the remainder after the scheme split come from the input. -/
theorem splitScheme_snd_sub (url : Str) : ∀ c ∈ (splitScheme url).2, c ∈ url := by
  intro c hc
  rcases splitScheme_cases url with ⟨-, h1⟩ | ⟨pre, rest, hb, -, h1⟩ |
      ⟨pre, rest, hb, -, h1⟩
  · rwa [h1] at hc
  · rwa [h1] at hc
  · rw [h1] at hc
    have hd := breakAt_decomp ':' url rest (by rw [hb])
    rw [hb] at hd
    rw [hd]
    exact List.mem_append_right _ (List.mem_cons_of_mem _ hc)

/-- Characters of netloc, path and query of a successful `urlsplit` come from
the sanitised input. -/
theorem urlsplit_sub (u : Str) (s : SplitResult) (h : urlsplit u = some s) :
    (∀ c ∈ s.netloc, c ∈ pySanitize u) ∧ (∀ c ∈ s.path, c ∈ pySanitize u) ∧
    (∀ c ∈ s.query, c ∈ pySanitize u) := by
  obtain ⟨netloc, url3, hs, -, hcase⟩ := urlsplit_decomp u s h
  have hurl3 : ∀ c ∈ url3, c ∈ pySanitize u := by
    intro c hc
    rcases hcase with ⟨-, -, hu3⟩ | ⟨-, -, hu3⟩
    · rw [hu3] at hc
      exact splitScheme_snd_sub _ c
        ((List.drop_sublist 2 _).mem ((List.dropWhile_sublist _).mem hc))
    · rw [hu3] at hc
      exact splitScheme_snd_sub _ c hc
  have hnet : ∀ c ∈ s.netloc, c ∈ pySanitize u := by
    intro c hc
    rw [hs, sfq_netloc] at hc
    rcases hcase with ⟨-, hn, -⟩ | ⟨-, hn, -⟩
    · rw [hn] at hc
      exact splitScheme_snd_sub _ c
        ((List.drop_sublist 2 _).mem ((List.takeWhile_sublist _).mem hc))
    · rw [hn] at hc
      cases hc
  refine ⟨hnet, ?_, ?_⟩
  · intro c hc
    rw [hs, sfq_path] at hc
    exact hurl3 c (mem_of_mem_breakAt_fst (mem_of_mem_breakAt_fst hc))
  · intro c hc
    rw [hs, sfq_query] at hc
    cases hq : (breakAt '?' (breakAt '#' url3).1).2 with
    | none => rw [hq] at hc; cases hc
    | some r =>
      rw [hq, Option.getD_some] at hc
      exact hurl3 c (mem_of_mem_breakAt_fst (mem_of_mem_breakAt_snd hq hc))

/-- On a `'?'`-free URL the query of `urlsplit` is empty. -/
theorem urlsplit_query_nil (u : Str) (s : SplitResult) (h : urlsplit u = some s)
    (hq : '?' ∉ u) : s.query = [] := by
  obtain ⟨netloc, url3, hs, -, hcase⟩ := urlsplit_decomp u s h
  rw [hs, sfq_query]
  cases hb : (breakAt '?' (breakAt '#' url3).1).2 with
  | none => rfl
  | some r =>
    exfalso
    have hd := breakAt_decomp '?' (breakAt '#' url3).1 r hb
    have hmem : '?' ∈ (breakAt '#' url3).1 := by
      rw [hd]
      exact List.mem_append_right _ (List.mem_cons_self _ _)
    have hmem3 : '?' ∈ url3 := mem_of_mem_breakAt_fst hmem
    have : '?' ∈ pySanitize u := by
      rcases hcase with ⟨-, -, hu3⟩ | ⟨-, -, hu3⟩
      · rw [hu3] at hmem3
        exact splitScheme_snd_sub _ _
          ((List.drop_sublist 2 _).mem ((List.dropWhile_sublist _).mem hmem3))
      · rw [hu3] at hmem3
        exact splitScheme_snd_sub _ _ hmem3
    exact hq (mem_sanitize_sub this)

/-- Shape of the path of a successful `urlsplit` of a `'?'`-free URL: in the
`'//'` branch the path is empty or starts with `'/'`; otherwise the path is a
prefix of the post-scheme remainder and the netloc is empty. -/
theorem urlsplit_path_shape (u : Str) (s : SplitResult) (h : urlsplit u = some s)
    (hq : '?' ∉ u) :
    ((splitScheme (pySanitize u)).2.take 2 = chars "//" ∧
      (s.path = [] ∨ s.path.head? = some '/')) ∨
    ((splitScheme (pySanitize u)).2.take 2 ≠ chars "//" ∧ s.netloc = [] ∧
      s.path <+: (splitScheme (pySanitize u)).2) := by
  obtain ⟨netloc, url3, hs, -, hcase⟩ := urlsplit_decomp u s h
  rcases hcase with ⟨h2, -, hu3⟩ | ⟨h2, hn, hu3⟩
  · left
    refine ⟨h2, ?_⟩
    cases hd : url3 with
    | nil =>
      left
      rw [hs, sfq_path, hd]
      rfl
    | cons d t =>
      have hdfail : notNetlocDelim d = false := by
        have := List.head?_dropWhile_not notNetlocDelim
          ((splitScheme (pySanitize u)).2.drop 2)
        rw [← hu3, hd] at this
        simpa using this
      have hd3 : d = '/' ∨ d = '?' ∨ d = '#' := by
        unfold notNetlocDelim at hdfail
        simp only [Bool.not_eq_false', Bool.or_eq_true, decide_eq_true_eq] at hdfail
        tauto
      rcases hd3 with hd3 | hd3 | hd3
      · right
        rw [hs, sfq_path, hd, hd3]
        have hb1 : (breakAt '#' ('/' :: t)).1 = '/' :: (breakAt '#' t).1 := by
          simp [breakAt]
        rw [hb1]
        have hb2 : (breakAt '?' ('/' :: (breakAt '#' t).1)).1 =
            '/' :: (breakAt '?' ((breakAt '#' t).1)).1 := by
          simp [breakAt]
        rw [hb2]
        rfl
      · exfalso
        have : '?' ∈ url3 := by rw [hd, hd3]; exact List.mem_cons_self _ _
        have h9 : '?' ∈ pySanitize u := by
          rw [hu3] at this
          exact splitScheme_snd_sub _ _
            ((List.drop_sublist 2 _).mem ((List.dropWhile_sublist _).mem this))
        exact hq (mem_sanitize_sub h9)
      · left
        rw [hs, sfq_path, hd, hd3]
        simp [breakAt]
  · right
    refine ⟨h2, by rw [hs, sfq_netloc, hn], ?_⟩
    rw [hs, sfq_path, hu3]
    exact (breakAt_fst_pre _ _).trans (breakAt_fst_pre _ _)

/-- When the scheme of a successful `urlsplit` is empty, no scheme split
happened. -/
theorem urlsplit_scheme_nil (u : Str) (s : SplitResult) (h : urlsplit u = some s)
    (hnil : s.scheme = []) :
    splitScheme (pySanitize u) = ([], pySanitize u) := by
  obtain ⟨netloc, url3, hs, -, -⟩ := urlsplit_decomp u s h
  have hfst : (splitScheme (pySanitize u)).1 = [] := by
    rw [hs, sfq_scheme] at hnil
    exact hnil
  rcases splitScheme_cases (pySanitize u) with ⟨-, h1⟩ | ⟨pre, rest, -, -, h1⟩ |
      ⟨pre, rest, -, hok, h1⟩
  · exact h1
  · exact h1
  · exfalso
    rw [h1] at hfst
    simp only [List.map_eq_nil_iff] at hfst
    rw [hfst] at hok
    cases hok

/-- When the scheme of a successful `urlsplit` is nonempty, the split
validated and lowercased it, and the remainder is determined. -/
theorem urlsplit_scheme_ne (u : Str) (s : SplitResult) (h : urlsplit u = some s)
    (hne : s.scheme ≠ []) :
    schemeOk s.scheme = true ∧ s.scheme.map asciiLower = s.scheme ∧
    splitScheme (pySanitize u) = (s.scheme, (splitScheme (pySanitize u)).2) := by
  obtain ⟨netloc, url3, hs, -, -⟩ := urlsplit_decomp u s h
  have hfst : s.scheme = (splitScheme (pySanitize u)).1 := by
    rw [hs, sfq_scheme]
  rcases splitScheme_cases (pySanitize u) with ⟨-, h1⟩ | ⟨pre, rest, -, -, h1⟩ |
      ⟨pre, rest, -, hok, h1⟩
  · rw [h1] at hfst
    exact absurd hfst hne
  · rw [h1] at hfst
    exact absurd hfst hne
  · rw [h1] at hfst ⊢
    obtain ⟨hok2, hlow⟩ := schemeOk_map_lower pre hok
    rw [hfst]
    exact ⟨hok2, hlow, rfl⟩

/-- `List.contains` is false exactly off the list. -/
theorem contains_eq_false_of_not_mem {c : Char} {s : Str} (h : c ∉ s) :
    s.contains c = false := by
  simp [h]

/-- On a `';'`-free URL, `urlparse` adds nothing over `urlsplit`. -/
theorem urlparse_clean (u : Str) (p : ParseResult) (h : urlparse u = some p)
    (hsemi : ';' ∉ u) :
    ∃ s, urlsplit u = some s ∧ p.scheme = s.scheme ∧ p.netloc = s.netloc ∧
      p.path = s.path ∧ p.params = [] ∧ p.query = s.query ∧
      p.fragment = s.fragment := by
  obtain ⟨s, hs, h1, h2, h3, h4, h5⟩ := urlparse_decomp u p h
  rcases h5 with ⟨hp, hpar⟩ | ⟨-, -, -, hc2⟩
  · exact ⟨s, hs, h1, h2, hp, hpar, h3, h4⟩
  · exfalso
    have hm : ';' ∈ s.path := by simpa using hc2
    exact hsemi (mem_sanitize_sub ((urlsplit_sub u s hs).2.1 _ hm))

/-- The netloc of a successful `urlsplit` passed the bracket check. -/
theorem urlsplit_bracket (u : Str) (s : SplitResult) (h : urlsplit u = some s) :
    bracketMismatch s.netloc = false := by
  obtain ⟨netloc, url3, hs, hbr, -⟩ := urlsplit_decomp u s h
  rw [hs, sfq_netloc]
  exact hbr

/-- `urlparse` over an `urlsplit` whose path has no semicolon. -/
theorem urlparse_of_urlsplit_nosemi (v : Str) (s : SplitResult)
    (h : urlsplit v = some s) (hsemi : ';' ∉ s.path) :
    urlparse v = some ⟨s.scheme, s.netloc, s.path, [], s.query, s.fragment⟩ := by
  have hcf : s.path.contains ';' = false := contains_eq_false_of_not_mem hsemi
  have hno : ¬ (usesParams.contains s.scheme = true ∧ s.path.contains ';' = true) := by
    intro hc
    rw [hcf] at hc
    exact Bool.noConfusion hc.2
  have hstep : urlparse v =
      (if usesParams.contains s.scheme = true ∧ s.path.contains ';' = true then
        some (⟨s.scheme, s.netloc, (splitparams s.path).1, (splitparams s.path).2,
               s.query, s.fragment⟩ : ParseResult)
      else some ⟨s.scheme, s.netloc, s.path, [], s.query, s.fragment⟩) := by
    unfold urlparse
    rw [h]
  rw [hstep, if_neg hno]

/-- `rstrip("/")` leaves no trailing slash. -/
theorem rstripSlashes_getLast_ne (s : Str) : (rstripSlashes s).getLast? ≠ some '/' := by
  intro h
  unfold rstripSlashes at h
  rw [List.getLast?_reverse] at h
  have h2 := List.head?_dropWhile_not (fun c => decide (c = '/')) s.reverse
  rw [h] at h2
  simp at h2

/-- `rstrip("/")` passes through a scheme prefix (the `':'` stops it). -/
theorem rstrip_unsplitSchemeStep (sch rest : Str) :
    rstripSlashes (unsplitSchemeStep sch rest) =
      unsplitSchemeStep sch (rstripSlashes rest) := by
  cases sch with
  | nil => rw [unsplitSchemeStep_nil, unsplitSchemeStep_nil]
  | cons c t =>
    have hne : (c :: t : Str) ≠ [] := by simp
    rw [unsplitSchemeStep_cons _ _ hne, unsplitSchemeStep_cons _ _ hne]
    rw [show (c :: t : Str) ++ ':' :: rest = ((c :: t) ++ [':']) ++ rest by simp]
    rw [rstripSlashes_append_getLast ((c :: t) ++ [':']) rest ':'
      (List.getLast?_concat _) (by decide)]
    simp

/-- All characters of an accepted scheme are `scheme_chars`. -/
theorem schemeOk_chars (s : Str) (h : schemeOk s = true) :
    ∀ c ∈ s, isSchemeChar c = true := by
  cases s with
  | nil => intro c hc; cases hc
  | cons d rest =>
    unfold schemeOk at h
    simp only [Bool.and_eq_true, List.all_eq_true] at h
    intro c hc
    exact h.2 c hc

/-- A netloc character is not a slash. -/
theorem netlocChar_ne_slash (c : Char) (h : notNetlocDelim c = true) : c ≠ '/' := by
  intro he
  subst he
  exact absurd h (by decide)

/-- Prepending a slash to a string that does not start with one cannot make
it start with two. -/
theorem take_two_slash (x : Str) (h : x.head? ≠ some '/') :
    ('/' :: x).take 2 ≠ chars "//" := by
  cases x with
  | nil => intro h2; exact absurd h2 (by decide)
  | cons c t =>
    intro h2
    rw [show chars "//" = ['/', '/'] from rfl] at h2
    have h3 : ('/' :: c :: t).take 2 = ['/', c] := rfl
    rw [h3] at h2
    injection h2 with h4 h5
    injection h5 with h6 h7
    subst h6
    exact h rfl

/-- `getLast?` skips a head before a nonempty tail. -/
theorem getLast?_cons_ne (a : Char) (l : Str) (h : l ≠ []) :
    (a :: l).getLast? = l.getLast? := by
  rw [show a :: l = [a] ++ l from rfl]
  exact List.getLast?_append_of_ne_nil [a] h

/-- `pySanitize` fixes a string of safe characters with a safe head. -/
theorem sanitize_eq_self_of_sub (u v : Str)
    (hsub : ∀ c ∈ v, c ∈ pySanitize u ∨ isSchemeChar c = true ∨ c = ':' ∨ c = '/')
    (hhead : ∀ c, v.head? = some c → isC0OrSpace c = false) :
    pySanitize v = v := by
  apply sanitize_eq_self v _ hhead
  intro c hc
  rcases hsub c hc with h | h | h | h
  · exact sanitize_no_unsafe u c h
  · exact schemeChar_not_unsafe c h
  · subst h; decide
  · subst h; decide

/-- A rebuilt netloc-form URL is already sanitised. -/
theorem clean_netloc_form (u sch nl tail : Str)
    (hschchars : ∀ c ∈ sch, isSchemeChar c = true)
    (hnl : ∀ c ∈ nl, c ∈ pySanitize u)
    (htail : ∀ c ∈ tail, c ∈ pySanitize u ∨ c = '/') :
    pySanitize (unsplitSchemeStep sch ('/' :: '/' :: (nl ++ tail))) =
      unsplitSchemeStep sch ('/' :: '/' :: (nl ++ tail)) := by
  apply sanitize_eq_self_of_sub u
  · intro c hc
    rcases mem_unsplitSchemeStep hc with h | h | h
    · exact Or.inr (Or.inl (hschchars c h))
    · simp only [List.mem_cons, List.mem_append] at h
      rcases h with h | h | h | h
      · subst h; right; right; right; rfl
      · subst h; right; right; right; rfl
      · exact Or.inl (hnl c h)
      · rcases htail c h with h2 | h2
        · exact Or.inl h2
        · subst h2; right; right; right; rfl
    · subst h; right; right; left; rfl
  · intro c hc
    cases sch with
    | nil =>
      rw [unsplitSchemeStep_nil] at hc
      simp only [List.head?_cons] at hc
      injection hc with hc
      subst hc
      decide
    | cons d t =>
      rw [unsplitSchemeStep_cons _ _ (by simp), List.cons_append] at hc
      simp only [List.head?_cons] at hc
      injection hc with hc
      subst hc
      exact schemeChar_not_c0 d (hschchars d (List.mem_cons_self d t))

/-- A rebuilt plain-form URL is already sanitised. -/
theorem clean_plain_form (u sch tail : Str)
    (hschchars : ∀ c ∈ sch, isSchemeChar c = true)
    (htail : ∀ c ∈ tail, c ∈ pySanitize u ∨ c = '/')
    (hhead : sch = [] → ∀ c, tail.head? = some c → isC0OrSpace c = false) :
    pySanitize (unsplitSchemeStep sch tail) = unsplitSchemeStep sch tail := by
  apply sanitize_eq_self_of_sub u
  · intro c hc
    rcases mem_unsplitSchemeStep hc with h | h | h
    · exact Or.inr (Or.inl (hschchars c h))
    · rcases htail c h with h2 | h2
      · exact Or.inl h2
      · subst h2; right; right; right; rfl
    · subst h; right; right; left; rfl
  · intro c hc
    cases hs : sch with
    | nil =>
      rw [hs, unsplitSchemeStep_nil] at hc
      exact hhead hs c hc
    | cons d t =>
      rw [hs, unsplitSchemeStep_cons _ _ (by simp), List.cons_append] at hc
      simp only [List.head?_cons] at hc
      injection hc with hc
      subst hc
      have hd : d ∈ sch := by rw [hs]; exact List.mem_cons_self d t
      exact schemeChar_not_c0 d (hschchars d hd)

/-- `urlsplit` of a rebuilt netloc-form URL recovers its components. -/
theorem urlsplit_build_netloc (sch nl tail : Str)
    (hsch : sch = [] ∨ (schemeOk sch = true ∧ sch.map asciiLower = sch))
    (hnl : ∀ c ∈ nl, notNetlocDelim c = true)
    (hbr : bracketMismatch nl = false)
    (htail : tail = [] ∨ tail.head? = some '/')
    (hhash : '#' ∉ tail) (hquest : '?' ∉ tail)
    (hclean : pySanitize (unsplitSchemeStep sch ('/' :: '/' :: (nl ++ tail))) =
      unsplitSchemeStep sch ('/' :: '/' :: (nl ++ tail))) :
    urlsplit (unsplitSchemeStep sch ('/' :: '/' :: (nl ++ tail))) =
      some ⟨sch, nl, tail, [], []⟩ := by
  have hsplit : splitScheme (pySanitize (unsplitSchemeStep sch ('/' :: '/' :: (nl ++ tail)))) =
      (sch, '/' :: '/' :: (nl ++ tail)) := by
    rw [hclean]
    rcases hsch with h | ⟨hok, hlow⟩
    · subst h
      rw [unsplitSchemeStep_nil]
      exact splitScheme_slash _ rfl
    · have hne : sch ≠ [] := by intro h0; rw [h0] at hok; exact absurd hok (by decide)
      rw [unsplitSchemeStep_cons _ _ hne]
      exact splitScheme_build sch _ hok hlow
  have htail' : tail = [] ∨ ∀ c, tail.head? = some c → notNetlocDelim c = false := by
    rcases htail with h | h
    · exact Or.inl h
    · right; intro c hc; rw [h] at hc; injection hc with hc; subst hc; decide
  obtain ⟨htw, hdw⟩ := takeWhile_head_false notNetlocDelim tail htail'
  simp only [urlsplit]
  rw [hsplit]
  have h1 : ('/' :: '/' :: (nl ++ tail) : Str).take 2 = chars "//" := rfl
  have h2 : ('/' :: '/' :: (nl ++ tail) : Str).drop 2 = nl ++ tail := rfl
  rw [if_pos h1, h2]
  rw [takeWhile_append_all notNetlocDelim nl tail hnl, htw, List.append_nil]
  rw [dropWhile_append_all notNetlocDelim nl tail hnl, hdw]
  rw [if_neg (fun hcon => by rw [hbr] at hcon; exact Bool.noConfusion hcon)]
  rw [sfq_clean _ _ _ hhash hquest]

/-- `urlsplit` of a rebuilt plain-form URL recovers its components. -/
theorem urlsplit_build_plain (sch tail : Str)
    (hsch : (sch = [] ∧ splitScheme tail = ([], tail)) ∨
      (schemeOk sch = true ∧ sch.map asciiLower = sch))
    (htake : tail.take 2 ≠ chars "//")
    (hhash : '#' ∉ tail) (hquest : '?' ∉ tail)
    (hclean : pySanitize (unsplitSchemeStep sch tail) = unsplitSchemeStep sch tail) :
    urlsplit (unsplitSchemeStep sch tail) = some ⟨sch, [], tail, [], []⟩ := by
  have hsplit : splitScheme (pySanitize (unsplitSchemeStep sch tail)) = (sch, tail) := by
    rw [hclean]
    rcases hsch with ⟨h, hsp⟩ | ⟨hok, hlow⟩
    · subst h
      rw [unsplitSchemeStep_nil]
      exact hsp
    · have hne : sch ≠ [] := by intro h0; rw [h0] at hok; exact absurd hok (by decide)
      rw [unsplitSchemeStep_cons _ _ hne]
      exact splitScheme_build sch _ hok hlow
  simp only [urlsplit]
  rw [hsplit]
  rw [if_neg htake]
  rw [sfq_clean _ _ _ hhash hquest]

/-- `_normalize_url` through a parse with empty params, query and the
reassembly reduced to the scheme and netloc steps. -/
theorem normalize_of_parse (v : Str) (p : ParseResult)
    (hp : urlparse v = some p) (hparams : p.params = []) (hquery : p.query = []) :
    Crawler._normalize_url v =
      some (if (unsplitSchemeStep p.scheme (unsplitNetlocStep p.scheme p.netloc p.path)).getLast? =
              some '/' ∧ 1 < p.path.length
            then rstripSlashes (unsplitSchemeStep p.scheme
              (unsplitNetlocStep p.scheme p.netloc p.path))
            else unsplitSchemeStep p.scheme (unsplitNetlocStep p.scheme p.netloc p.path)) := by
  have hw : urlunparse {p with fragment := []} =
      unsplitSchemeStep p.scheme (unsplitNetlocStep p.scheme p.netloc p.path) := by
    show urlunsplit p.scheme p.netloc
        (if p.params ≠ [] then p.path ++ ';' :: p.params else p.path) p.query [] = _
    rw [if_neg (by rw [hparams]; exact fun h => h rfl)]
    show unsplitFragStep (unsplitQueryStep (unsplitSchemeStep p.scheme
        (unsplitNetlocStep p.scheme p.netloc p.path)) p.query) [] = _
    rw [hquery, unsplitQueryStep_nil, unsplitFragStep_nil]
  unfold Crawler._normalize_url
  rw [hp]
  rw [Option.map_some']
  simp only [hw]

/-- A rebuilt netloc-form URL that the strip condition leaves alone is a
fixed point of `_normalize_url`. -/
theorem normalize_fix_netloc (sch nl tail : Str)
    (hsch : sch = [] ∨ (schemeOk sch = true ∧ sch.map asciiLower = sch))
    (hnl : ∀ c ∈ nl, notNetlocDelim c = true)
    (hbr : bracketMismatch nl = false)
    (htail : tail = [] ∨ tail.head? = some '/')
    (hhash : '#' ∉ tail) (hquest : '?' ∉ tail) (hsm : ';' ∉ tail)
    (hclean : pySanitize (unsplitSchemeStep sch ('/' :: '/' :: (nl ++ tail))) =
      unsplitSchemeStep sch ('/' :: '/' :: (nl ++ tail)))
    (hC : nl ≠ [] ∨ (sch ≠ [] ∧ usesNetloc.contains sch = true ∧ tail.take 2 ≠ ['/', '/']))
    (hnostrip : ¬ ((unsplitSchemeStep sch ('/' :: '/' :: (nl ++ tail))).getLast? = some '/' ∧
      1 < tail.length)) :
    Crawler._normalize_url (unsplitSchemeStep sch ('/' :: '/' :: (nl ++ tail))) =
      some (unsplitSchemeStep sch ('/' :: '/' :: (nl ++ tail))) := by
  have hsp := urlsplit_build_netloc sch nl tail hsch hnl hbr htail hhash hquest hclean
  have hpr := urlparse_of_urlsplit_nosemi _ _ hsp hsm
  have hnf := normalize_of_parse _ _ hpr rfl rfl
  rw [hnf]
  show some (if (unsplitSchemeStep sch (unsplitNetlocStep sch nl tail)).getLast? = some '/' ∧
          1 < tail.length
        then rstripSlashes (unsplitSchemeStep sch (unsplitNetlocStep sch nl tail))
        else unsplitSchemeStep sch (unsplitNetlocStep sch nl tail)) =
      some (unsplitSchemeStep sch ('/' :: '/' :: (nl ++ tail)))
  rw [unsplitNetlocStep_pos sch nl tail hC htail]
  rw [if_neg hnostrip]

/-- A rebuilt plain-form URL that the strip condition leaves alone is a
fixed point of `_normalize_url`. -/
theorem normalize_fix_plain (sch tail : Str)
    (hsch : (sch = [] ∧ splitScheme tail = ([], tail)) ∨
      (schemeOk sch = true ∧ sch.map asciiLower = sch))
    (htake : tail.take 2 ≠ chars "//")
    (hhash : '#' ∉ tail) (hquest : '?' ∉ tail) (hsm : ';' ∉ tail)
    (hclean : pySanitize (unsplitSchemeStep sch tail) = unsplitSchemeStep sch tail)
    (hCno : ¬ (sch ≠ [] ∧ usesNetloc.contains sch = true ∧ tail.take 2 ≠ ['/', '/']))
    (hnostrip : ¬ ((unsplitSchemeStep sch tail).getLast? = some '/' ∧ 1 < tail.length)) :
    Crawler._normalize_url (unsplitSchemeStep sch tail) =
      some (unsplitSchemeStep sch tail) := by
  have hsp := urlsplit_build_plain sch tail hsch htake hhash hquest hclean
  have hpr := urlparse_of_urlsplit_nosemi _ _ hsp hsm
  have hnf := normalize_of_parse _ _ hpr rfl rfl
  rw [hnf]
  show some (if (unsplitSchemeStep sch (unsplitNetlocStep sch [] tail)).getLast? = some '/' ∧
          1 < tail.length
        then rstripSlashes (unsplitSchemeStep sch (unsplitNetlocStep sch [] tail))
        else unsplitSchemeStep sch (unsplitNetlocStep sch [] tail)) =
      some (unsplitSchemeStep sch tail)
  rw [unsplitNetlocStep_neg sch [] tail
    (fun h => h.elim (fun h1 => h1 rfl) (fun h2 => hCno h2))]
  rw [if_neg hnostrip]

/-- `getLast?` through the scheme-prefix step (the tail is nonempty). -/
theorem getLast?_unsplitSchemeStep (sch url : Str) (h : url ≠ []) :
    (unsplitSchemeStep sch url).getLast? = url.getLast? := by
  cases sch with
  | nil => rw [unsplitSchemeStep_nil]
  | cons c t =>
    rw [unsplitSchemeStep_cons _ _ (by simp)]
    rw [List.getLast?_append_of_ne_nil _ (by simp)]
    rw [getLast?_cons_ne _ _ h]

/-- Claim C5 (amended): normalization is idempotent on every URL `u` that
contains no `'?'` and no `';'` and whose parse does not have an empty netloc
together with a path starting `'//'`: if `normalize(u) = v` then
`normalize(v) = v`.  (The unrestricted claim is refuted by
`c5_normalize_idem_counterexample`.) -/
theorem c5_normalize_idem (u v : Str) (p : ParseResult)
    (hp : urlparse u = some p)
    (hq : '?' ∉ u) (hsemi : ';' ∉ u)
    (hslash : p.netloc ≠ [] ∨ p.path.take 2 ≠ chars "//")
    (hv : Crawler._normalize_url u = some v) :
    Crawler._normalize_url v = some v := by
  obtain ⟨s, hs, hps, hpn, hpp, hppar, hpq, hpf⟩ := urlparse_clean u p hp hsemi
  have hqnil : s.query = [] := urlsplit_query_nil u s hs hq
  have hpq0 : p.query = [] := by rw [hpq, hqnil]
  have hvv := normalize_of_parse u p hp hppar hpq0
  rw [hv] at hvv
  injection hvv with hvv
  rw [hps, hpn, hpp] at hvv
  have hslash' : s.netloc ≠ [] ∨ s.path.take 2 ≠ chars "//" := by
    rcases hslash with h | h
    · left; rwa [hpn] at h
    · right; rwa [hpp] at h
  have hschspec := urlsplit_scheme_spec u s hs
  have hschchars := urlsplit_scheme_chars u s hs
  have hnlchars := urlsplit_netloc_chars u s hs
  have hbr := urlsplit_bracket u s hs
  have hsub := urlsplit_sub u s hs
  have hhashp : '#' ∉ s.path := (urlsplit_no_hash u s hs).2.2.1
  have hqp : '?' ∉ s.path := fun h => hq (mem_sanitize_sub (hsub.2.1 _ h))
  have hsmp : ';' ∉ s.path := fun h => hsemi (mem_sanitize_sub (hsub.2.1 _ h))
  have hnlsub : ∀ c ∈ s.netloc, c ∈ pySanitize u := hsub.1
  have hpsub : ∀ c ∈ s.path, c ∈ pySanitize u := hsub.2.1
  have hshape := urlsplit_path_shape u s hs hq
  by_cases hC : s.netloc ≠ [] ∨ (s.scheme ≠ [] ∧ usesNetloc.contains s.scheme = true ∧
      s.path.take 2 ≠ ['/', '/'])
  · -- the '//' + netloc block is re-attached
    by_cases hph : s.path = [] ∨ s.path.head? = some '/'
    · -- no '/' is inserted before the path
      rw [unsplitNetlocStep_pos s.scheme s.netloc s.path hC hph] at hvv
      by_cases hcond : (unsplitSchemeStep s.scheme
          ('/' :: '/' :: (s.netloc ++ s.path))).getLast? = some '/' ∧ 1 < s.path.length
      · -- trailing slashes are stripped
        rw [if_pos hcond, rstrip_unsplitSchemeStep] at hvv
        have hpne : s.path ≠ [] := by
          intro h0
          rw [h0] at hcond
          exact absurd hcond.2 (by simp)
        have hphead : s.path.head? = some '/' := by
          rcases hph with h | h
          · exact absurd h hpne
          · exact h
        by_cases hp2 : rstripSlashes s.path = []
        · -- the path was all slashes; only '//' + netloc survives
          have hnlne : s.netloc ≠ [] := by
            rcases hC with h | ⟨h1, h2, h3⟩
            · exact h
            · exfalso
              have hall : ∀ c ∈ s.path, c = '/' := (rstripSlashes_eq_nil_iff s.path).mp hp2
              apply h3
              cases hpth : s.path with
              | nil => exact absurd hpth hpne
              | cons a t =>
                cases t with
                | nil =>
                  rw [hpth] at hcond
                  exact absurd hcond.2 (by simp)
                | cons b t2 =>
                  have ha : a = '/' := hall a (by rw [hpth]; exact List.mem_cons_self _ _)
                  have hb : b = '/' := hall b
                    (by rw [hpth]; exact List.mem_cons_of_mem _ (List.mem_cons_self _ _))
                  subst ha
                  subst hb
                  rfl
          have hnl_slash : s.netloc.getLast? ≠ some '/' := by
            intro h0
            exact absurd (hnlchars _ (getLast?_mem _ _ h0)) (by decide)
          have hlast2 : ('/' :: '/' :: s.netloc : Str).getLast? ≠ some '/' := by
            rw [getLast?_cons_ne _ _ (by simp), getLast?_cons_ne _ _ hnlne]
            exact hnl_slash
          have hinner : rstripSlashes ('/' :: '/' :: (s.netloc ++ s.path)) =
              '/' :: '/' :: s.netloc := by
            rw [show ('/' :: '/' :: (s.netloc ++ s.path) : Str) =
              ('/' :: '/' :: s.netloc) ++ s.path by simp]
            rw [rstripSlashes_append_of_nil _ _ hp2]
            exact rstripSlashes_eq_self _ hlast2
          rw [hinner] at hvv
          have hfix := normalize_fix_netloc s.scheme s.netloc [] hschspec hnlchars hbr
            (Or.inl rfl) (by simp) (by simp) (by simp)
            (clean_netloc_form u s.scheme s.netloc [] hschchars hnlsub (by simp))
            (Or.inl hnlne)
            (fun hcon => by simp at hcon)
          rw [List.append_nil] at hfix
          rw [hvv]
          exact hfix
        · -- a nonempty stripped path remains, still starting with '/'
          have hp2h : (rstripSlashes s.path).head? = some '/' := by
            rw [← prefix_head (rstripSlashes s.path) s.path (rstripSlashes_pre s.path) hp2]
            exact hphead
          have hinner : rstripSlashes ('/' :: '/' :: (s.netloc ++ s.path)) =
              '/' :: '/' :: (s.netloc ++ rstripSlashes s.path) := by
            rw [show ('/' :: '/' :: (s.netloc ++ s.path) : Str) =
              ('/' :: '/' :: s.netloc) ++ s.path by simp]
            rw [rstripSlashes_append_of_ne_nil _ _ hp2]
            simp
          rw [hinner] at hvv
          have hC2 : s.netloc ≠ [] ∨ (s.scheme ≠ [] ∧ usesNetloc.contains s.scheme = true ∧
              (rstripSlashes s.path).take 2 ≠ ['/', '/']) := by
            rcases hC with h | ⟨h1, h2, h3⟩
            · exact Or.inl h
            · refine Or.inr ⟨h1, h2, fun hcon => h3 ?_⟩
              exact prefix_take_two _ _ (rstripSlashes_pre s.path) (by rw [hcon]; rfl)
          have hnostrip2 : ¬ ((unsplitSchemeStep s.scheme
              ('/' :: '/' :: (s.netloc ++ rstripSlashes s.path))).getLast? = some '/' ∧
              1 < (rstripSlashes s.path).length) := by
            intro hcon
            have h1 : ('/' :: '/' :: (s.netloc ++ rstripSlashes s.path) : Str).getLast? =
                (rstripSlashes s.path).getLast? := by
              rw [getLast?_cons_ne _ _ (by simp), getLast?_cons_ne _ _ (by simp [hp2]),
                List.getLast?_append_of_ne_nil _ hp2]
            rw [getLast?_unsplitSchemeStep _ _ (by simp), h1] at hcon
            exact rstripSlashes_getLast_ne s.path hcon.1
          rw [hvv]
          exact normalize_fix_netloc s.scheme s.netloc (rstripSlashes s.path)
            hschspec hnlchars hbr (Or.inr hp2h)
            (fun hcon => hhashp (mem_of_mem_rstripSlashes hcon))
            (fun hcon => hqp (mem_of_mem_rstripSlashes hcon))
            (fun hcon => hsmp (mem_of_mem_rstripSlashes hcon))
            (clean_netloc_form u s.scheme s.netloc (rstripSlashes s.path) hschchars hnlsub
              (fun c hc => Or.inl (hpsub c (mem_of_mem_rstripSlashes hc))))
            hC2 hnostrip2
      · -- no stripping: the rebuilt string is already the fixed point
        rw [if_neg hcond] at hvv
        rw [hvv]
        exact normalize_fix_netloc s.scheme s.netloc s.path hschspec hnlchars hbr hph
          hhashp hqp hsmp
          (clean_netloc_form u s.scheme s.netloc s.path hschchars hnlsub
            (fun c hc => Or.inl (hpsub c hc)))
          hC hcond
    · -- a '/' is inserted before the path
      push_neg at hph
      obtain ⟨hpne, hphead⟩ := hph
      rw [unsplitNetlocStep_pos_prepend s.scheme s.netloc s.path hC ⟨hpne, hphead⟩] at hvv
      have hC4 : ∀ t2 : Str, t2.head? ≠ some '/' → (s.netloc ≠ [] ∨ (s.scheme ≠ [] ∧
          usesNetloc.contains s.scheme = true ∧ ('/' :: t2).take 2 ≠ ['/', '/'])) := by
        intro t2 ht2
        rcases hC with h | ⟨h1, h2, -⟩
        · exact Or.inl h
        · exact Or.inr ⟨h1, h2, fun hcon => (take_two_slash t2 ht2) hcon⟩
      by_cases hcond : (unsplitSchemeStep s.scheme
          ('/' :: '/' :: (s.netloc ++ '/' :: s.path))).getLast? = some '/' ∧ 1 < s.path.length
      · -- stripping after the inserted slash
        rw [if_pos hcond, rstrip_unsplitSchemeStep] at hvv
        have hrpne : rstripSlashes s.path ≠ [] := by
          intro h0
          have hall := (rstripSlashes_eq_nil_iff s.path).mp h0
          cases hpth : s.path with
          | nil => exact hpne hpth
          | cons a t =>
            apply hphead
            have ha := hall a (by rw [hpth]; exact List.mem_cons_self _ _)
            rw [hpth, show ((a :: t : Str).head?) = some a from rfl, ha]
        have hrph : (rstripSlashes s.path).head? ≠ some '/' := by
          rw [← prefix_head _ _ (rstripSlashes_pre s.path) hrpne]
          exact hphead
        have hinner : rstripSlashes ('/' :: '/' :: (s.netloc ++ '/' :: s.path)) =
            '/' :: '/' :: (s.netloc ++ '/' :: rstripSlashes s.path) := by
          rw [show ('/' :: '/' :: (s.netloc ++ '/' :: s.path) : Str) =
            ('/' :: '/' :: (s.netloc ++ ['/'])) ++ s.path by simp]
          rw [rstripSlashes_append_of_ne_nil _ _ hrpne]
          simp
        rw [hinner] at hvv
        have hnostrip4 : ¬ ((unsplitSchemeStep s.scheme
            ('/' :: '/' :: (s.netloc ++ '/' :: rstripSlashes s.path))).getLast? = some '/' ∧
            1 < ('/' :: rstripSlashes s.path).length) := by
          intro hcon
          have h1 : ('/' :: '/' :: (s.netloc ++ '/' :: rstripSlashes s.path) : Str).getLast? =
              (rstripSlashes s.path).getLast? := by
            rw [getLast?_cons_ne _ _ (by simp), getLast?_cons_ne _ _ (by simp),
              List.getLast?_append_of_ne_nil _ (by simp), getLast?_cons_ne _ _ hrpne]
          rw [getLast?_unsplitSchemeStep _ _ (by simp), h1] at hcon
          exact rstripSlashes_getLast_ne s.path hcon.1
        rw [hvv]
        exact normalize_fix_netloc s.scheme s.netloc ('/' :: rstripSlashes s.path)
          hschspec hnlchars hbr (Or.inr rfl)
          (by
            intro hcon
            rcases List.mem_cons.mp hcon with h | h
            · exact absurd h (by decide)
            · exact hhashp (mem_of_mem_rstripSlashes h))
          (by
            intro hcon
            rcases List.mem_cons.mp hcon with h | h
            · exact absurd h (by decide)
            · exact hqp (mem_of_mem_rstripSlashes h))
          (by
            intro hcon
            rcases List.mem_cons.mp hcon with h | h
            · exact absurd h (by decide)
            · exact hsmp (mem_of_mem_rstripSlashes h))
          (clean_netloc_form u s.scheme s.netloc ('/' :: rstripSlashes s.path) hschchars hnlsub
            (by
              intro c hc
              rcases List.mem_cons.mp hc with h | h
              · exact Or.inr h
              · exact Or.inl (hpsub c (mem_of_mem_rstripSlashes h))))
          (hC4 (rstripSlashes s.path) hrph)
          hnostrip4
      · -- no stripping with the inserted slash
        rw [if_neg hcond] at hvv
        have hnostrip4 : ¬ ((unsplitSchemeStep s.scheme
            ('/' :: '/' :: (s.netloc ++ '/' :: s.path))).getLast? = some '/' ∧
            1 < ('/' :: s.path).length) := by
          intro hcon
          have h1 : ('/' :: '/' :: (s.netloc ++ '/' :: s.path) : Str).getLast? =
              s.path.getLast? := by
            rw [getLast?_cons_ne _ _ (by simp), getLast?_cons_ne _ _ (by simp),
              List.getLast?_append_of_ne_nil _ (by simp), getLast?_cons_ne _ _ hpne]
          have hpl : s.path.getLast? = some '/' := by
            have h2 := hcon.1
            rw [getLast?_unsplitSchemeStep _ _ (by simp), h1] at h2
            exact h2
          by_cases hlen : 1 < s.path.length
          · exact hcond ⟨hcon.1, hlen⟩
          · cases hpth : s.path with
            | nil => exact hpne hpth
            | cons a t =>
              cases t with
              | nil =>
                rw [hpth] at hpl
                have hsing : ((a :: ([] : Str)).getLast?) = some a := rfl
                rw [hsing] at hpl
                injection hpl with ha
                apply hphead
                rw [hpth, show ((a :: ([] : Str)).head?) = some a from rfl, ha]
              | cons b t2 =>
                apply hlen
                rw [hpth]
                simp
        rw [hvv]
        exact normalize_fix_netloc s.scheme s.netloc ('/' :: s.path)
          hschspec hnlchars hbr (Or.inr rfl)
          (by
            intro hcon
            rcases List.mem_cons.mp hcon with h | h
            · exact absurd h (by decide)
            · exact hhashp h)
          (by
            intro hcon
            rcases List.mem_cons.mp hcon with h | h
            · exact absurd h (by decide)
            · exact hqp h)
          (by
            intro hcon
            rcases List.mem_cons.mp hcon with h | h
            · exact absurd h (by decide)
            · exact hsmp h)
          (clean_netloc_form u s.scheme s.netloc ('/' :: s.path) hschchars hnlsub
            (by
              intro c hc
              rcases List.mem_cons.mp hc with h | h
              · exact Or.inr h
              · exact Or.inl (hpsub c h)))
          (hC4 s.path hphead)
          hnostrip4
  · -- nothing is re-attached: the path alone (with an optional scheme) remains
    rw [unsplitNetlocStep_neg s.scheme s.netloc s.path hC] at hvv
    have hnl0 : s.netloc = [] := by
      by_contra h0
      exact hC (Or.inl h0)
    have htake0 : s.path.take 2 ≠ ['/', '/'] := by
      rcases hslash' with h | h
      · exact absurd hnl0 h
      · exact h
    rcases hschspec with hsch0 | ⟨hok, hlow⟩
    · -- no scheme: the result is a prefix of the sanitised input or starts '/'
      rw [hsch0, unsplitSchemeStep_nil] at hvv
      have hpsp : ∀ t2 : Str, t2 <+: s.path → splitScheme t2 = ([], t2) := by
        intro t2 hpre
        rcases hshape with ⟨-, hshp⟩ | ⟨-, -, hpfx⟩
        · rcases hshp with h | h
          · rw [h] at hpre
            rw [List.prefix_nil.mp hpre]
            rfl
          · cases ht2 : t2 with
            | nil => rfl
            | cons a t3 =>
              apply splitScheme_slash
              rw [← ht2]
              rw [← prefix_head t2 s.path hpre (by rw [ht2]; simp)]
              exact h
        · have hsp0 := urlsplit_scheme_nil u s hs hsch0
          have h2 : (splitScheme (pySanitize u)).2 = pySanitize u := by rw [hsp0]
          rw [h2] at hpfx
          exact splitScheme_prefix (pySanitize u) t2 (hpre.trans hpfx) hsp0
      have hheadp : ∀ t2 : Str, t2 <+: s.path → ∀ c, t2.head? = some c →
          isC0OrSpace c = false := by
        intro t2 hpre c hc
        have ht2ne : t2 ≠ [] := by
          intro h0
          rw [h0] at hc
          cases hc
        have hpe : s.path.head? = some c := by
          rw [prefix_head t2 s.path hpre ht2ne]
          exact hc
        rcases hshape with ⟨-, hshp⟩ | ⟨-, -, hpfx⟩
        · rcases hshp with h | h
          · rw [h] at hpe
            cases hpe
          · have hce := h.symm.trans hpe
            injection hce with hce
            rw [← hce]
            decide
        · have hsp0 := urlsplit_scheme_nil u s hs hsch0
          have h2 : (splitScheme (pySanitize u)).2 = pySanitize u := by rw [hsp0]
          rw [h2] at hpfx
          have hpne2 : s.path ≠ [] := by
            intro h0
            rw [h0] at hpe
            cases hpe
          have h3 := prefix_head s.path (pySanitize u) hpfx hpne2
          exact sanitize_head u c (by rw [h3]; exact hpe)
      by_cases hcond : s.path.getLast? = some '/' ∧ 1 < s.path.length
      · rw [if_pos hcond] at hvv
        rw [hvv]
        have hfix := normalize_fix_plain [] (rstripSlashes s.path)
          (Or.inl ⟨rfl, hpsp _ (rstripSlashes_pre s.path)⟩)
          (fun hcon => htake0 (prefix_take_two _ _ (rstripSlashes_pre s.path) hcon))
          (fun hcon => hhashp (mem_of_mem_rstripSlashes hcon))
          (fun hcon => hqp (mem_of_mem_rstripSlashes hcon))
          (fun hcon => hsmp (mem_of_mem_rstripSlashes hcon))
          (clean_plain_form u [] (rstripSlashes s.path) (by intro c hc; cases hc)
            (fun c hc => Or.inl (hpsub c (mem_of_mem_rstripSlashes hc)))
            (fun _ => hheadp _ (rstripSlashes_pre s.path)))
          (fun hcon => hcon.1 rfl)
          (by
            intro hcon
            rw [unsplitSchemeStep_nil] at hcon
            exact rstripSlashes_getLast_ne s.path hcon.1)
        rw [unsplitSchemeStep_nil] at hfix
        exact hfix
      · rw [if_neg hcond] at hvv
        rw [hvv]
        have hfix := normalize_fix_plain [] s.path
          (Or.inl ⟨rfl, hpsp _ (List.prefix_refl _)⟩)
          htake0 hhashp hqp hsmp
          (clean_plain_form u [] s.path (by intro c hc; cases hc)
            (fun c hc => Or.inl (hpsub c hc))
            (fun _ => hheadp _ (List.prefix_refl _)))
          (fun hcon => hcon.1 rfl)
          (by
            intro hcon
            rw [unsplitSchemeStep_nil] at hcon
            exact hcond hcon)
        rw [unsplitSchemeStep_nil] at hfix
        exact hfix
    · -- a scheme is present but its `uses_netloc` test failed
      have hschne : s.scheme ≠ [] := by
        intro h0
        rw [h0] at hok
        exact absurd hok (by decide)
      have hcontf : usesNetloc.contains s.scheme = false := by
        cases hcb : usesNetloc.contains s.scheme
        · rfl
        · exact absurd (Or.inr ⟨hschne, hcb, htake0⟩) hC
      have hCno : ∀ t2 : Str, ¬ (s.scheme ≠ [] ∧ usesNetloc.contains s.scheme = true ∧
          t2.take 2 ≠ ['/', '/']) := by
        intro t2 hcon
        rw [hcontf] at hcon
        exact Bool.noConfusion hcon.2.1
      by_cases hcond : (unsplitSchemeStep s.scheme s.path).getLast? = some '/' ∧
          1 < s.path.length
      · rw [if_pos hcond, rstrip_unsplitSchemeStep] at hvv
        rw [hvv]
        exact normalize_fix_plain s.scheme (rstripSlashes s.path)
          (Or.inr ⟨hok, hlow⟩)
          (fun hcon => htake0 (prefix_take_two _ _ (rstripSlashes_pre s.path) hcon))
          (fun hcon => hhashp (mem_of_mem_rstripSlashes hcon))
          (fun hcon => hqp (mem_of_mem_rstripSlashes hcon))
          (fun hcon => hsmp (mem_of_mem_rstripSlashes hcon))
          (clean_plain_form u s.scheme (rstripSlashes s.path) hschchars
            (fun c hc => Or.inl (hpsub c (mem_of_mem_rstripSlashes hc)))
            (fun h0 => absurd h0 hschne))
          (hCno _)
          (by
            intro hcon
            by_cases hrp : rstripSlashes s.path = []
            · rw [hrp, unsplitSchemeStep_cons _ _ hschne] at hcon
              rw [show (s.scheme ++ ':' :: ([] : Str)) = s.scheme ++ [':'] from rfl,
                List.getLast?_concat] at hcon
              exact absurd hcon.1 (by decide)
            · rw [getLast?_unsplitSchemeStep _ _ hrp] at hcon
              exact rstripSlashes_getLast_ne s.path hcon.1)
      · rw [if_neg hcond] at hvv
        rw [hvv]
        exact normalize_fix_plain s.scheme s.path
          (Or.inr ⟨hok, hlow⟩)
          htake0 hhashp hqp hsmp
          (clean_plain_form u s.scheme s.path hschchars
            (fun c hc => Or.inl (hpsub c hc))
            (fun h0 => absurd h0 hschne))
          (hCno _)
          hcond

/-- Witness for `c5_normalize_idem`: the amended idempotence at the concrete
URL `http://example.com/page/`, whose normal form is `http://example.com/page`. -/
theorem c5_normalize_idem_witness :
    Crawler._normalize_url (chars "http://example.com/page") =
      some (chars "http://example.com/page") :=
  c5_normalize_idem (chars "http://example.com/page/") (chars "http://example.com/page")
    ⟨chars "http", chars "example.com", chars "/page/", [], [], []⟩
    (by decide) (by decide) (by decide) (by decide) (by decide)
